import Mathlib

/-!
# Verification of the mini-react-compiler core pipeline

Shallow embedding of the compiler core:
* the flat IR (`Instruction`, `FunctionBody`) and its operand iterator (`eachValue`),
* the dependency analyzer (`isHookCall`, `isExpensiveOperation`,
  `getValuesThatMayChange`, `getWritableValues`, `analyze`, `shouldMemoize`),
* the block partitioner (`getInstructionScopeRanges`, `makeReactiveInstrs`),
* the code generator (`instrToExpression`, `getDependencyNames`, `codegenJS`),
* the IR builder over a model of the host AST (`lowerExpr`, `lowerStmt`,
  `readInstructions`),
* the independent statement-level rewrite (`extractIdentifiers`,
  `hasExpensiveOperation`, `rewriteStmts`).

Modelling conventions:
* JavaScript `Map`s keyed by the dense `InstrId` (always allocated as
  `state.size`) are modelled as Lean lists indexed by position; `map.get(id)`
  becomes `list.get? id`.
* JavaScript `Set`s are modelled as insertion-ordered duplicate-free lists
  (`setAdd`), preserving iteration order.
* Source locations (`loc` fields) carry no behaviour and are elided.
* The external console sink is modelled as an abstract list of log events;
  the exact text of a log line is not modelled.
* The imperative union-find (`DisjointSet`) is modelled by the partition it
  computes: its only observation in the source is `buildSets()`, which returns
  the equivalence classes with more than one element.
-/

namespace MRC

/-- Insertion into a JavaScript `Set`: keeps first-insertion order, no duplicates. -/
def setAdd {α : Type} [DecidableEq α] (s : List α) (x : α) : List α :=
  if x ∈ s then s else s ++ [x]

/-- Literal payloads (`string | number | boolean`). JS numbers are modelled as `Int`. -/
inductive Lit where
  | str (v : String)
  | num (v : Int)
  | bool (v : Bool)
  deriving DecidableEq, Repr

/-- `Value` from types.ts: `{kind: "RValue"} | {kind: "Literal"}`. -/
inductive Value where
  | RValue (id : Nat)
  | Literal (l : Lit)
  deriving DecidableEq, Repr

/-- A `ReadProperty` property is `string | number`. -/
inductive PropName where
  | pstr (s : String)
  | pnum (n : Int)
  deriving DecidableEq, Repr

/-- `Instruction` from types.ts (the `loc` field is elided). -/
inductive Instruction where
  | Call (receiver : Nat) (property : Option String) (args : List Value)
  | Object (properties : List (String × Value))
  | ReadProperty (object : Nat) (property : PropName)
  | Declare (lhs : String) (rhs : Nat)
  | Param (name : String)
  | LoadConstant (variableName : String)
  | Return (value : Option Nat)
  deriving DecidableEq, Repr

/-- `FunctionBody = Map<InstrId, Instruction>` with dense insertion-ordered keys:
a list, position = id. -/
abbrev FunctionBody := List Instruction

def Instruction.isParam : Instruction → Bool
  | .Param _ => true
  | _ => false

def Instruction.isDeclare : Instruction → Bool
  | .Declare _ _ => true
  | _ => false

/-- `["Object", "Call"].includes(instr.kind)` -/
def Instruction.isObjectOrCall : Instruction → Bool
  | .Object _ => true
  | .Call _ _ _ => true
  | _ => false

/-- `eachValue` (LoweredJavaScript.ts): every operand id an instruction consumes,
in generator-yield order. -/
def eachValue : Instruction → List Nat
  | .Call receiver _ args =>
      receiver :: args.filterMap (fun v => match v with
        | .RValue i => some i
        | .Literal _ => none)
  | .Object properties =>
      properties.filterMap (fun kv => match kv.2 with
        | .RValue i => some i
        | .Literal _ => none)
  | .ReadProperty object _ => [object]
  | .Declare _ rhs => [rhs]
  | .Return v => v.toList
  | .Param _ => []
  | .LoadConstant _ => []

/-! ## Dependency analyzer (Analysis.ts) -/

/-- `isHookCall`: a Call whose receiver resolves to a `LoadConstant` whose
name starts with `"use"`. -/
def isHookCall (instr : Instruction) (func : FunctionBody) : Bool :=
  match instr with
  | .Call receiver _ _ =>
      match func.get? receiver with
      | some (.LoadConstant variableName) => variableName.startsWith "use"
      | _ => false
  | _ => false

def expensiveMethods : List String :=
  ["map", "filter", "reduce", "sort", "find", "findIndex"]

def expensiveFunctions : List String :=
  ["Math.sqrt", "Math.pow", "Math.sin", "Math.cos"]

/-- JS `String.prototype.includes` on char lists: does `hay` start with `needle`? -/
def charsStart : List Char → List Char → Bool
  | _, [] => true
  | [], _ :: _ => false
  | c :: cs, d :: ds => c = d && charsStart cs ds

/-- JS `String.prototype.includes`: `needle` occurs contiguously in `hay`. -/
def charsContain : List Char → List Char → Bool
  | [], needle => needle.isEmpty
  | c :: t, needle => charsStart (c :: t) needle || charsContain t needle

def strContains (s needle : String) : Bool :=
  charsContain s.toList needle.toList

/-- JS `fn.split(sep)[0]`: the text before the first separator. -/
def charsTakeUntil (sep : Char) : List Char → List Char
  | [] => []
  | c :: rest => if c = sep then [] else c :: charsTakeUntil sep rest

def splitHead (fn : String) (sep : Char) : String :=
  ⟨charsTakeUntil sep fn.toList⟩

/-- `isExpensiveOperation` (Analysis.ts).  Note the early `return` when
`instr.property` is truthy (a non-empty string): the Math-token test on the
receiver is only reached when the property is absent (or the empty string). -/
def isExpensiveOperation (instr : Instruction) (func : FunctionBody) : Bool :=
  match instr with
  | .Call receiver property _ =>
      if (property.getD "") ≠ "" then
        expensiveMethods.contains (property.getD "")
      else
        match func.get? receiver with
        | some (.LoadConstant variableName) =>
            expensiveFunctions.any (fun fn =>
              strContains variableName (splitHead fn '.'))
        | _ => false
  | .Object _ => true
  | _ => false

/-- Forward sweep of `getValuesThatMayChange`; `id` is the position of the head
of the remaining suffix, `acc` the set built so far. -/
def mayChangeGo (func : FunctionBody) : List Instruction → Nat → List Nat → List Nat
  | [], _, acc => acc
  | instr :: rest, id, acc =>
      mayChangeGo func rest (id + 1)
        (if instr.isParam || isHookCall instr func then setAdd acc id
         else if (eachValue instr).any (fun used => acc.contains used) then setAdd acc id
         else acc)

def getValuesThatMayChange (func : FunctionBody) : List Nat :=
  mayChangeGo func func 0 []

/-- Forward sweep of `getWritableValues`. -/
def writableGo : List Instruction → Nat → List Nat → List Nat
  | [], _, acc => acc
  | instr :: rest, id, acc =>
      writableGo rest (id + 1)
        (if instr.isObjectOrCall then setAdd acc id
         else if (eachValue instr).any (fun used => acc.contains used) then setAdd acc id
         else acc)

def getWritableValues (func : FunctionBody) : List Nat :=
  writableGo func 0 []

/-- `ValueInfo` (types.ts).  `analyze` always sets `dependencies` and
`shouldMemo`; an absent `instructions` set is the empty set. -/
structure ValueInfo where
  dependencies : List Nat
  instructions : List Nat
  shouldMemo : Bool
  deriving DecidableEq, Repr

/-- Step 1 of `analyze`, per instruction: the consumed ids marked may-change,
in consumption order. -/
def depsOf (instr : Instruction) (mayChange : List Nat) : List Nat :=
  (eachValue instr).foldl
    (fun acc used => if mayChange.contains used then setAdd acc used else acc) []

/-- Step 2 of `analyze`, read off per target: the Call ids (ascending) that
consume `target` while `target` is writable.  The source inserts into
`result.get(used).instructions` while iterating Calls in ascending id order;
per target this yields exactly this list. -/
def mutatorsGo (writable : List Nat) (target : Nat) :
    List Instruction → Nat → List Nat → List Nat
  | [], _, acc => acc
  | instr :: rest, id, acc =>
      mutatorsGo writable target rest (id + 1)
        (match instr with
         | .Call _ _ _ =>
             if (eachValue instr).contains target && writable.contains target then
               setAdd acc id
             else acc
         | _ => acc)

def mutatorsOf (func : FunctionBody) (writable : List Nat) (target : Nat) : List Nat :=
  mutatorsGo writable target func 0 []

def analyzeGo (func : FunctionBody) (mayChange writable : List Nat) :
    List Instruction → Nat → List ValueInfo
  | [], _ => []
  | instr :: rest, id =>
      let deps := depsOf instr mayChange
      { dependencies := deps
        instructions := mutatorsOf func writable id
        shouldMemo := isExpensiveOperation instr func && !deps.isEmpty } ::
      analyzeGo func mayChange writable rest (id + 1)

/-- `analyze` (Analysis.ts): one `ValueInfo` per instruction, same keys. -/
def analyze (func : FunctionBody) : List ValueInfo :=
  analyzeGo func (getValuesThatMayChange func) (getWritableValues func) func 0

/-- `shouldMemoize` (Analysis.ts). -/
def shouldMemoize (info : ValueInfo) : Bool :=
  info.shouldMemo && !info.dependencies.isEmpty

/-! ## Block partitioner (CodeGen.ts) -/

/-- Insertion-ordered duplicate removal (used when merging union-find classes). -/
def nubKeepFirst {α : Type} [DecidableEq α] (l : List α) : List α :=
  l.foldl setAdd []

/-- One `DisjointSet.union(items)` call, on the partition the union-find
computes: no-op for fewer than two items (as in the source); otherwise all
classes touching `items` are fused with the items into one class. -/
def dsUnion (classes : List (List Nat)) (items : List Nat) : List (List Nat) :=
  if items.length < 2 then classes
  else
    nubKeepFirst ((classes.filter (fun c => c.any (fun x => items.contains x))).flatten
        ++ items) ::
      classes.filter (fun c => !c.any (fun x => items.contains x))

/-- The union loop of `getInstructionScopeRanges`: for every instruction with
`shouldMemoize`, union its id with its recorded mutator set. -/
def scopeClassesGo (infos : List ValueInfo) :
    List Instruction → Nat → List (List Nat) → List (List Nat)
  | [], _, acc => acc
  | _ :: rest, id, acc =>
      scopeClassesGo infos rest (id + 1)
        (match infos.get? id with
         | some info =>
             if shouldMemoize info then dsUnion acc (info.instructions ++ [id]) else acc
         | none => acc)

/-- `Math.min(...set)` over a non-empty class. -/
def listMin : List Nat → Nat
  | [] => 0
  | x :: xs => xs.foldl Nat.min x

/-- `Math.max(...set)` over a non-empty class. -/
def listMax : List Nat → Nat
  | [] => 0
  | x :: xs => xs.foldl Nat.max x

/-- A closed instruction range; the source fields are named `start`/`end`. -/
structure Scope where
  lo : Nat
  hi : Nat
  deriving DecidableEq, Repr

def scopeLE (a b : Scope) : Prop := a.lo ≤ b.lo

instance : DecidableRel scopeLE := fun a b => Nat.decLe a.lo b.lo

instance : IsTotal Scope scopeLE := ⟨fun a b => Nat.le_total a.lo b.lo⟩

instance : IsTrans Scope scopeLE := ⟨fun _ _ _ => Nat.le_trans⟩

/-- The merge loop of `getInstructionScopeRanges`: `previous` is the range
under construction, merged with the next when `previous.end >= next.start`. -/
def mergeLoop (prev : Scope) : List Scope → List Scope
  | [] => [prev]
  | r :: rest =>
      if r.lo ≤ prev.hi then mergeLoop ⟨prev.lo, Nat.max prev.hi r.hi⟩ rest
      else prev :: mergeLoop r rest

def mergeRanges : List Scope → List Scope
  | [] => []
  | r :: rest => mergeLoop r rest

/-- `getInstructionScopeRanges` (CodeGen.ts): union shouldMemoize instructions
with their mutators, keep classes of size > 1, take `[min, max]` per class,
sort by start and merge overlapping ranges. -/
def getInstructionScopeRanges (func : FunctionBody) (infos : List ValueInfo) :
    List Scope :=
  let sets := (scopeClassesGo infos func 0 []).filter (fun g => g.length > 1)
  if sets.isEmpty then []
  else
    mergeRanges
      (List.insertionSort scopeLE (sets.map (fun s => ⟨listMin s, listMax s⟩)))

/-- `ReactiveInstruction` (types.ts): a `ReactiveBlock` or a plain instruction
tagged with its id. -/
inductive ReactiveInstruction where
  | block (instrs : List (Nat × Instruction)) (decls : List Nat) (deps : List Nat)
  | instr (id : Nat) (ins : Instruction)
  deriving DecidableEq, Repr

def ReactiveInstruction.isBlock : ReactiveInstruction → Bool
  | .block _ _ _ => true
  | .instr _ _ => false

/-- Ids contributed by one reactive instruction. -/
def riIds : ReactiveInstruction → List Nat
  | .block instrs _ _ => instrs.map (fun p => p.1)
  | .instr id _ => [id]

/-- The pass-through emission loops of `makeReactiveInstrs`: instruction ids in
`[lo, hi)` that exist in the body, each as a tagged plain instruction. -/
def emitRange (func : FunctionBody) (lo hi : Nat) : List ReactiveInstruction :=
  (List.range' lo (hi - lo)).filterMap
    (fun i => (func.get? i).map (fun ins => .instr i ins))

/-- One iteration of the block construction loop of `makeReactiveInstrs`:
append the instruction, record its id in `decls`, fold its dependency set
into `deps`. -/
def blockStep (func : FunctionBody) (infos : List ValueInfo)
    (st : List (Nat × Instruction) × List Nat × List Nat) (i : Nat) :
    List (Nat × Instruction) × List Nat × List Nat :=
  match func.get? i with
  | some ins =>
      let deps := match infos.get? i with
        | some info => info.dependencies
        | none => []
      (st.1 ++ [(i, ins)], setAdd st.2.1 i, deps.foldl setAdd st.2.2)
  | none => st

/-- The block construction loop of `makeReactiveInstrs`: instructions of
`[lo, hi]`, their ids as `decls`, and the union (in visit order) of their
dependency sets as `deps`. -/
def buildBlock (func : FunctionBody) (infos : List ValueInfo) (lo hi : Nat) :
    ReactiveInstruction :=
  let st := (List.range' lo (hi + 1 - lo)).foldl (blockStep func infos) ([], [], [])
  .block st.1 st.2.1 st.2.2

/-- The scope loop of `makeReactiveInstrs`.  `start` is `startingInstrId`.
A single-instruction scope holding a `Declare` is demoted to a plain
instruction.  (When a scope start is not an instruction id the source would
crash on `func.get(scope.start)!`; that case is unreachable from
`getInstructionScopeRanges` and modelled as building the block.) -/
def processScopes (func : FunctionBody) (infos : List ValueInfo) :
    List Scope → Nat → List ReactiveInstruction
  | [], start => emitRange func start func.length
  | sc :: rest, start =>
      emitRange func start sc.lo ++
      (match func.get? sc.lo with
       | some first =>
           if sc.lo = sc.hi && first.isDeclare then [.instr sc.lo first]
           else [buildBlock func infos sc.lo sc.hi]
       | none => [buildBlock func infos sc.lo sc.hi]) ++
      processScopes func infos rest (sc.hi + 1)

/-- `makeReactiveInstrs` (CodeGen.ts). -/
def makeReactiveInstrs (func : FunctionBody) (infos : List ValueInfo) :
    List ReactiveInstruction :=
  processScopes func infos (getInstructionScopeRanges func infos) 0

/-! ## Host AST model (the Babel node shapes the compiler inspects)

The source dispatches on `NodePath` predicates over the host AST.  The model
is typed the way Babel's grammar is (expressions in expression positions);
list-shaped children are inlined inductives so that structural induction is
available.  An `unsupportedE`/`unsupportedS` constructor stands for every
other node kind and carries that kind's `node.type` string. -/

/-- An element of an array destructuring pattern. -/
inductive PatElem where
  | elemIdent (name : String)
  | elemOther (ty : String)
  deriving DecidableEq, Repr

mutual
inductive BExpr where
  | ident (name : String)
  | member (obj : BExpr) (prop : BExpr) (computed : Bool)
  | objectE (props : BMembers)
  | callE (callee : BExpr) (args : BArgs)
  | strLit (v : String)
  | numLit (v : Int)
  | boolLit (v : Bool)
  | arrow (params : List String) (body : BFnBody)
  | funcE (params : List String) (body : BFnBody)
  | binary (left : BExpr) (right : BExpr)
  | arrayE (elems : BArgs)
  | unsupportedE (ty : String)

inductive BArgs where
  | nil
  | cons (head : BExpr) (tail : BArgs)

inductive BMembers where
  | nil
  | cons (head : BMember) (tail : BMembers)

inductive BMember where
  | prop (key : BExpr) (value : BExpr)
  | spreadM (arg : BExpr)
  | otherM (ty : String)

inductive BFnBody where
  | blockB (stmts : BStmts)
  | exprB (e : BExpr)

inductive BStmts where
  | nil
  | cons (head : BStmt) (tail : BStmts)

inductive BStmt where
  | ret (arg : Option BExpr)
  | varDecl (kind : String) (decls : BDecls)
  | exprStmt (e : BExpr)
  | unsupportedS (ty : String)

inductive BDecls where
  | nil
  | cons (head : BDecl) (tail : BDecls)

inductive BDecl where
  | declarator (lhs : BLVal) (init : Option BExpr)
  | otherDecl (ty : String)

inductive BLVal where
  | lident (name : String)
  | arrayPat (elements : List (Option PatElem))
  | otherPat (ty : String)
end

/-- The Babel `node.type` string of an expression node. -/
def BExpr.tyName : BExpr → String
  | .ident _ => "Identifier"
  | .member _ _ _ => "MemberExpression"
  | .objectE _ => "ObjectExpression"
  | .callE _ _ => "CallExpression"
  | .strLit _ => "StringLiteral"
  | .numLit _ => "NumericLiteral"
  | .boolLit _ => "BooleanLiteral"
  | .arrow _ _ => "ArrowFunctionExpression"
  | .funcE _ _ => "FunctionExpression"
  | .binary _ _ => "BinaryExpression"
  | .arrayE _ => "ArrayExpression"
  | .unsupportedE ty => ty

def BStmt.tyName : BStmt → String
  | .ret _ => "ReturnStatement"
  | .varDecl _ _ => "VariableDeclaration"
  | .exprStmt _ => "ExpressionStatement"
  | .unsupportedS ty => ty

/-- A function parameter node (`readInstructions` accepts identifiers and
object patterns). -/
inductive BParamNode where
  | pident (name : String)
  | objPat (props : List BMember)
  | otherParam (ty : String)

/-- The function declaration handed to the core: parameter list plus body
statement list. -/
structure BFunction where
  params : List BParamNode
  body : BStmts

/-! ## IR builder (Transform.ts) -/

/-- One abstract console event.  `instrLog` is the `logInstr` line printed for
every appended instruction; the two `skip*` events are the `⚠️ Skipping ...`
lines of the fallback branches.  Log text itself is not modelled. -/
inductive LogEvent where
  | instrLog (id : Nat)
  | skipUnsupported (ty : String)
  | skipPattern (ty : String)
  deriving DecidableEq, Repr

/-- Lowering state: the `FunctionBody` map under construction plus the console
sink. -/
structure LowerState where
  instrs : List Instruction
  logs : List LogEvent
  deriving Repr

/-- `state.set(state.size, instr)` without logging (parameter processing). -/
def pushRaw (ins : Instruction) (s : LowerState) : LowerState × Nat :=
  ({ s with instrs := s.instrs ++ [ins] }, s.instrs.length)

/-- `state.set(state.size, instr)` followed by `logInstr`. -/
def pushInstr (ins : Instruction) (s : LowerState) : LowerState × Nat :=
  ({ instrs := s.instrs ++ [ins], logs := s.logs ++ [.instrLog s.instrs.length] },
   s.instrs.length)

/-- `getDeclaration` (Transform.ts): scan the entries in insertion order and
return the id of the first `Declare`/`Param` carrying the name. -/
def getDeclarationGo : List Instruction → String → Nat → Option Nat
  | [], _, _ => none
  | ins :: rest, name, id =>
      match ins with
      | .Declare lhs _ => if lhs = name then some id else getDeclarationGo rest name (id + 1)
      | .Param nm => if nm = name then some id else getDeclarationGo rest name (id + 1)
      | _ => getDeclarationGo rest name (id + 1)

def getDeclaration (func : List Instruction) (variableName : String) : Option Nat :=
  getDeclarationGo func variableName 0

/-- The fallback branch of `lowerBabelInstr`: log a skip line, then append an
opaque `LoadConstant` placeholder. -/
def lowerUnsupported (ty : String) (s : LowerState) : LowerState × Nat :=
  pushInstr (.LoadConstant ("unsupported_" ++ ty))
    { s with logs := s.logs ++ [.skipUnsupported ty] }

/-- JS `Map.prototype.set`: replace in place if the key exists, else append. -/
def mapSet : List (String × Value) → String → Value → List (String × Value)
  | [], k, v => [(k, v)]
  | (k', v') :: rest, k, v =>
      if k' = k then (k, v) :: rest else (k', v') :: mapSet rest k v

mutual
/-- The expression branches of `lowerBabelInstr` (Transform.ts), state-passing.
Errors are the `assertsValid`/`throw` hard failures of the source. -/
def lowerExpr : BExpr → LowerState → Except String (LowerState × Nat)
  | .member obj prop _, s => do
      let (s1, objectValue) ← lowerExpr obj s
      match prop with
      | .ident name => .ok (pushInstr (.ReadProperty objectValue (.pstr name)) s1)
      | .numLit v => .ok (pushInstr (.ReadProperty objectValue (.pnum v)) s1)
      | .strLit v => .ok (pushInstr (.ReadProperty objectValue (.pstr v)) s1)
      | other => .error ("Unsupported property type: " ++ other.tyName)
  | .objectE props, s => do
      let (s1, propertyValues) ← lowerProps props s []
      .ok (pushInstr (.Object propertyValues) s1)
  | .callE (.member obj p _) args, s => do
      let (s1, receiverValue) ← lowerExpr obj s
      match p with
      | .ident propertyName => do
          let (s2, argumentValues) ← lowerArgs args s1
          .ok (pushInstr (.Call receiverValue (some propertyName) argumentValues) s2)
      | _ => .error "Invalid syntax. Only identifier properties supported"
  | .callE callee args, s => do
      let (s1, receiverValue) ← lowerExpr callee s
      let (s2, argumentValues) ← lowerArgs args s1
      .ok (pushInstr (.Call receiverValue none argumentValues) s2)
  | .ident name, s =>
      (match getDeclaration s.instrs name with
       | some localDeclaration => .ok (s, localDeclaration)
       | none => .ok (pushInstr (.LoadConstant name) s))
  | .strLit v, s => .ok (pushInstr (.LoadConstant v) s)
  | .numLit v, s => .ok (pushInstr (.LoadConstant (toString v)) s)
  | .boolLit v, s => .ok (pushInstr (.LoadConstant (if v then "true" else "false")) s)
  | .arrow _ _, s => .ok (pushInstr (.LoadConstant "function") s)
  | .funcE _ _, s => .ok (pushInstr (.LoadConstant "function") s)
  | .binary l r, s => .ok (lowerUnsupported (BExpr.binary l r).tyName s)
  | .arrayE es, s => .ok (lowerUnsupported (BExpr.arrayE es).tyName s)
  | .unsupportedE ty, s => .ok (lowerUnsupported ty s)

/-- The object-literal property loop: identifier keys only; literal values are
inlined, other values lowered recursively; non-`ObjectProperty` members are
skipped.  `kvs` is the `propertyValues` map under construction. -/
def lowerProps : BMembers → LowerState → List (String × Value) →
    Except String (LowerState × List (String × Value))
  | .nil, s, kvs => .ok (s, kvs)
  | .cons (.prop (.ident keyName) (.strLit v)) rest, s, kvs =>
      lowerProps rest s (mapSet kvs keyName (.Literal (.str v)))
  | .cons (.prop (.ident keyName) (.numLit v)) rest, s, kvs =>
      lowerProps rest s (mapSet kvs keyName (.Literal (.num v)))
  | .cons (.prop (.ident keyName) (.boolLit v)) rest, s, kvs =>
      lowerProps rest s (mapSet kvs keyName (.Literal (.bool v)))
  | .cons (.prop (.ident keyName) value) rest, s, kvs => do
      let (s1, v) ← lowerExpr value s
      lowerProps rest s1 (mapSet kvs keyName (.RValue v))
  | .cons (.prop _ _) _, _, _ =>
      .error "Invalid syntax. Only identifier keys supported"
  | .cons _ rest, s, kvs => lowerProps rest s kvs

/-- The call-argument loop: literals are inlined, everything else lowered. -/
def lowerArgs : BArgs → LowerState → Except String (LowerState × List Value)
  | .nil, s => .ok (s, [])
  | .cons (.numLit v) rest, s => do
      let (s1, vs) ← lowerArgs rest s
      .ok (s1, .Literal (.num v) :: vs)
  | .cons (.strLit v) rest, s => do
      let (s1, vs) ← lowerArgs rest s
      .ok (s1, .Literal (.str v) :: vs)
  | .cons (.boolLit v) rest, s => do
      let (s1, vs) ← lowerArgs rest s
      .ok (s1, .Literal (.bool v) :: vs)
  | .cons a rest, s => do
      let (s1, v) ← lowerExpr a s
      let (s2, vs) ← lowerArgs rest s1
      .ok (s2, .RValue v :: vs)
end

/-- The synthetic combined name for an array-pattern `Declare`
(`` `[${elements.map(...).join(', ')}]` ``). -/
def arrayPatName (elements : List (Option PatElem)) : String :=
  "[" ++ String.intercalate ", "
    (elements.enum.map (fun p =>
      match p.2 with
      | some (.elemIdent n) => n
      | _ => "_" ++ toString p.1)) ++ "]"

/-- The declarator loop of the `VariableDeclaration` branch.  `last` is
`lastValue` (initialised to `state.size` on entry); the missing-initializer
check precedes the pattern dispatch; unsupported patterns are logged and
skipped; non-declarator nodes are skipped silently. -/
def lowerDecls : BDecls → LowerState → Nat → Except String (LowerState × Nat)
  | .nil, s, last => .ok (s, last)
  | .cons (.declarator _ none) _, _, _ =>
      .error "Invalid syntax. Variable must have initializer"
  | .cons (.declarator (.lident name) (some init)) rest, s, _ => do
      let (s1, initValue) ← lowerExpr init s
      let (s2, currValue) := pushInstr (.Declare name initValue) s1
      lowerDecls rest s2 currValue
  | .cons (.declarator (.arrayPat elements) (some init)) rest, s, _ => do
      let (s1, initValue) ← lowerExpr init s
      let (s2, currValue) := pushInstr (.Declare (arrayPatName elements) initValue) s1
      lowerDecls rest s2 currValue
  | .cons (.declarator (.otherPat ty) (some _)) rest, s, last =>
      lowerDecls rest { s with logs := s.logs ++ [.skipPattern ty] } last
  | .cons (.otherDecl _) rest, s, last => lowerDecls rest s last

/-- The statement branches of `lowerBabelInstr`. -/
def lowerStmt : BStmt → LowerState → Except String (LowerState × Nat)
  | .ret (some e), s => do
      let (s1, argumentValue) ← lowerExpr e s
      .ok (pushInstr (.Return (some argumentValue)) s1)
  | .ret none, s => .ok (pushInstr (.Return none) s)
  | .varDecl _ decls, s => lowerDecls decls s s.instrs.length
  | .exprStmt e, s => lowerExpr e s
  | .unsupportedS ty, s => .ok (lowerUnsupported ty s)

/-- The parameter loop of `readInstructions`: object patterns contribute one
`Param` per identifier-keyed property; plain parameters must be identifiers. -/
def lowerParams : List BParamNode → LowerState → Except String LowerState
  | [], s => .ok s
  | .pident name :: rest, s =>
      lowerParams rest (pushRaw (.Param name) s).1
  | .objPat props :: rest, s => do
      let s' ← lowerObjPat props s
      lowerParams rest s'
  | .otherParam ty :: _, _ =>
      .error ("Invalid syntax. Cannot handle non-identifier param " ++ ty)
where
  lowerObjPat : List BMember → LowerState → Except String LowerState
  | [], s => .ok s
  | .prop (.ident keyName) _ :: rest, s =>
      lowerObjPat rest (pushRaw (.Param keyName) s).1
  | .prop _ _ :: _, _ =>
      .error "Invalid syntax. Cannot handle non-identifier key in destructured param"
  | .spreadM _ :: _, _ =>
      .error "Invalid syntax. Cannot handle SpreadElement in param"
  | .otherM ty :: _, _ =>
      .error ("Invalid syntax. Cannot handle " ++ ty ++ " in param")

/-- The body loop of `readInstructions` (statement results are discarded). -/
def lowerBody : BStmts → LowerState → Except String LowerState
  | .nil, s => .ok s
  | .cons st rest, s => do
      let (s1, _) ← lowerStmt st s
      lowerBody rest s1

/-- `readInstructions` (Transform.ts): parameters first, then the body
statements, in order. -/
def readInstructions (f : BFunction) : Except String LowerState := do
  let s1 ← lowerParams f.params ⟨[], []⟩
  lowerBody f.body s1

/-! ## Code generator (CodeGen.ts) -/

/-- `instrToExpression`, with explicit fuel for the recursion through operand
ids.  The source recurses through `func.get(id)!`; under the
no-forward-reference invariant chains strictly descend, so fuel
`func.length + 1` makes the model exact (the fuel-0 result is unreachable). -/
def instrToExpression (func : FunctionBody) : Nat → Instruction → BExpr
  | 0, _ => .ident "unknown"
  | fuel + 1, ins =>
      match ins with
      | .Call receiver property args =>
          let callee : BExpr :=
            match func.get? receiver with
            | some r =>
                if (property.getD "") ≠ "" then
                  .member (instrToExpression func fuel r) (.ident (property.getD "")) false
                else instrToExpression func fuel r
            | none => .ident "unknown"
          .callE callee (listToBArgs (args.map (fun a =>
            match a with
            | .Literal (.str v) => BExpr.strLit v
            | .Literal (.num v) => BExpr.numLit v
            | .Literal (.bool v) => BExpr.boolLit v
            | .RValue i =>
                match func.get? i with
                | some target => instrToExpression func fuel target
                | none => .ident "unknown")))
      | .Object properties =>
          .objectE (listToBMembers (properties.map (fun kv =>
            BMember.prop (.ident kv.1)
              (match kv.2 with
               | .Literal (.str v) => BExpr.strLit v
               | .Literal (.num v) => BExpr.numLit v
               | .Literal (.bool v) => BExpr.boolLit v
               | .RValue i =>
                   match func.get? i with
                   | some target => instrToExpression func fuel target
                   | none => .ident "unknown"))))
      | .LoadConstant variableName => .ident variableName
      | .ReadProperty object property =>
          let obj : BExpr :=
            match func.get? object with
            | some target => instrToExpression func fuel target
            | none => .ident "unknown"
          (match property with
           | .pstr s => .member obj (.ident s) false
           | .pnum n => .member obj (.numLit n) true)
      | _ => .ident "unknown"
where
  listToBArgs : List BExpr → BArgs
  | [] => .nil
  | e :: es => .cons e (listToBArgs es)
  listToBMembers : List BMember → BMembers
  | [] => .nil
  | m :: ms => .cons m (listToBMembers ms)

/-- `getDependencyNames`: dependency ids resolved to `Param` names or
`Declare` left-hand names; anything else is omitted. -/
def getDependencyNames (deps : List Nat) (func : FunctionBody) : List String :=
  deps.filterMap (fun dep =>
    match func.get? dep with
    | some (.Param name) => some name
    | some (.Declare lhs _) => some lhs
    | _ => none)

/-- The dependency pruning in `codegenJS`: drop deps produced inside the same
block. -/
def pruneRI : ReactiveInstruction → ReactiveInstruction
  | .block instrs decls deps =>
      .block instrs decls (deps.filter (fun dep => !instrs.any (fun p => p.1 = dep)))
  | ri => ri

/-- The scan for the first `shouldMemo` member of a block (insertion order =
ascending id order). -/
def firstShouldMemo (infos : List ValueInfo) :
    List (Nat × Instruction) → Option (Nat × Instruction)
  | [] => none
  | (id, ins) :: rest =>
      match infos.get? id with
      | some info => if info.shouldMemo then some (id, ins) else firstShouldMemo infos rest
      | none => firstShouldMemo infos rest

/-- The emission loop of `codegenJS`.  `memoIndex` increments only when a
declaration is actually emitted. -/
def codegenGo (func : FunctionBody) (infos : List ValueInfo) :
    List ReactiveInstruction → Nat → List BStmt
  | [], _ => []
  | .instr _ _ :: rest, memoIndex => codegenGo func infos rest memoIndex
  | .block instrs _decls deps :: rest, memoIndex =>
      if deps.isEmpty then codegenGo func infos rest memoIndex
      else
        match firstShouldMemo infos instrs with
        | none => codegenGo func infos rest memoIndex
        | some (_, mainOperation) =>
            let depNames := getDependencyNames deps func
            BStmt.varDecl "const"
              (.cons (.declarator (.lident ("memoized" ++ toString memoIndex))
                (some (.callE (.ident "useMemo")
                  (.cons (.arrow [] (.exprB (instrToExpression func (func.length + 1)
                      mainOperation)))
                    (.cons (.arrayE (exprsToBArgs (depNames.map BExpr.ident))) .nil)))))
                .nil) ::
            codegenGo func infos rest (memoIndex + 1)
where
  exprsToBArgs : List BExpr → BArgs
  | [] => .nil
  | e :: es => .cons e (exprsToBArgs es)

/-- `codegenJS` (CodeGen.ts): only `ReactiveBlock`s with non-empty pruned deps
and a `shouldMemo` member produce output (a `const memoized<N> = useMemo(...)`
declaration); plain instructions produce nothing. -/
def codegenJS (func : FunctionBody) (infos : List ValueInfo) : List BStmt :=
  codegenGo func infos ((makeReactiveInstrs func infos).map pruneRI) 0

/-! ## Statement-level rewrite (compiler/index.ts) -/

mutual
/-- The `traverse` closure of `extractIdentifiers`: identifiers in traversal
order (member objects, computed properties, call callees and arguments,
function bodies, object property values and spread arguments, binary operands,
return arguments; nothing else is entered). -/
def extractExpr : BExpr → List String
  | .ident name => [name]
  | .member obj prop computed =>
      extractExpr obj ++ (if computed then extractExpr prop else [])
  | .callE callee args => extractExpr callee ++ extractArgs args
  | .arrow _ body => extractFnBody body
  | .funcE _ body => extractFnBody body
  | .objectE props => extractMembers props
  | .binary l r => extractExpr l ++ extractExpr r
  | .strLit _ => []
  | .numLit _ => []
  | .boolLit _ => []
  | .arrayE _ => []
  | .unsupportedE _ => []

def extractArgs : BArgs → List String
  | .nil => []
  | .cons e rest => extractExpr e ++ extractArgs rest

def extractMembers : BMembers → List String
  | .nil => []
  | .cons (.prop _ value) rest => extractExpr value ++ extractMembers rest
  | .cons (.spreadM arg) rest => extractExpr arg ++ extractMembers rest
  | .cons (.otherM _) rest => extractMembers rest

def extractFnBody : BFnBody → List String
  | .blockB stmts => extractStmts stmts
  | .exprB e => extractExpr e

def extractStmts : BStmts → List String
  | .nil => []
  | .cons st rest => extractStmt st ++ extractStmts rest

def extractStmt : BStmt → List String
  | .ret (some arg) => extractExpr arg
  | .ret none => []
  | .varDecl _ _ => []
  | .exprStmt _ => []
  | .unsupportedS _ => []
end

/-- `extractIdentifiers` (index.ts): traversal order, duplicates removed
(`[...new Set(identifiers)]`). -/
def extractIdentifiers (e : BExpr) : List String :=
  nubKeepFirst (extractExpr e)

/-- The fixed name blacklist of the free-identifier rewrite. -/
def excludeList : List String := ["item", "Math", "console", "window", "document"]

/-- The per-declarator test of `hasExpensiveOperation`: an initializer that is
a call whose callee is a member access with an identifier property named in
`expensiveMethods`. -/
def declHasExpensiveInit : BDecl → Bool
  | .declarator _ (some (.callE (.member _ (.ident p) _) _)) =>
      expensiveMethods.contains p
  | _ => false

/-- `hasExpensiveOperation` (index.ts), over the declarator list. -/
def hasExpensiveOperation : BDecls → Bool
  | .nil => false
  | .cons d rest => declHasExpensiveInit d || hasExpensiveOperation rest

/-- The in-place initializer replacement of step 4: wrap the original call in
`useMemo(() => call, [deps])` where `deps` is the free-identifier walk minus
the blacklist. -/
def rewriteDecl : BDecl → BDecl
  | .declarator lhs (some (.callE (.member obj (.ident p) computed) args)) =>
      if expensiveMethods.contains p then
        let originalCall : BExpr := .callE (.member obj (.ident p) computed) args
        let dependencies :=
          (extractIdentifiers originalCall).filter (fun id => !excludeList.contains id)
        .declarator lhs (some (.callE (.ident "useMemo")
          (.cons (.arrow [] (.exprB originalCall))
            (.cons (.arrayE (depsToBArgs (dependencies.map BExpr.ident))) .nil))))
      else .declarator lhs (some (.callE (.member obj (.ident p) computed) args))
  | d => d
where
  depsToBArgs : List BExpr → BArgs
  | [] => .nil
  | e :: es => .cons e (depsToBArgs es)

def rewriteDecls : BDecls → BDecls
  | .nil => .nil
  | .cons d rest => .cons (rewriteDecl d) (rewriteDecls rest)

/-- Step 4 of the `FunctionDeclaration` visitor: rewrite, in place, every
variable declaration that contains an expensive-method initializer. -/
def rewriteStmts : BStmts → BStmts
  | .nil => .nil
  | .cons st rest =>
      .cons
        (match st with
         | .varDecl kind decls =>
             if hasExpensiveOperation decls then .varDecl kind (rewriteDecls decls)
             else .varDecl kind decls
         | other => other)
        (rewriteStmts rest)

def bstmtsToList : BStmts → List BStmt
  | .nil => []
  | .cons st rest => st :: bstmtsToList rest

/-- The function-body part of the visitor (import maintenance elided):
lower, analyze, generate, rewrite statements in place, and prepend the
generated declarations. -/
def compileFunctionBody (f : BFunction) : Except String (List BStmt) := do
  let st ← readInstructions f
  let infos := analyze st.instrs
  let generatedBody := codegenJS st.instrs infos
  .ok (generatedBody ++ bstmtsToList (rewriteStmts f.body))

/-! ## Supporting lemmas -/

theorem mem_setAdd {α : Type} [DecidableEq α] {s : List α} {x y : α} :
    y ∈ setAdd s x ↔ y ∈ s ∨ y = x := by
  simp only [setAdd]
  split
  · next h =>
      constructor
      · exact fun hy => Or.inl hy
      · rintro (hy | rfl)
        · exact hy
        · exact h
  · simp [List.mem_append]

theorem contains_iff {α : Type} [DecidableEq α] (l : List α) (a : α) :
    l.contains a = true ↔ a ∈ l := by
  simp [List.contains, List.elem_iff]

theorem mem_depsFold (mc : List Nat) :
    ∀ (l acc : List Nat) (u : Nat),
      (u ∈ l.foldl (fun acc used =>
          if mc.contains used then setAdd acc used else acc) acc) ↔
        u ∈ acc ∨ (u ∈ l ∧ u ∈ mc) := by
  intro l
  induction l with
  | nil => simp
  | cons x xs ih =>
      intro acc u
      simp only [List.foldl_cons]
      by_cases hx : x ∈ mc
      · rw [if_pos ((contains_iff mc x).mpr hx), ih, mem_setAdd]
        simp only [List.mem_cons]
        constructor
        · rintro ((hy | rfl) | ⟨h1, h2⟩)
          · exact Or.inl hy
          · exact Or.inr ⟨Or.inl rfl, hx⟩
          · exact Or.inr ⟨Or.inr h1, h2⟩
        · rintro (hy | ⟨(rfl | hy), hmc⟩)
          · exact Or.inl (Or.inl hy)
          · exact Or.inl (Or.inr rfl)
          · exact Or.inr ⟨hy, hmc⟩
      · rw [if_neg (fun hcon => hx ((contains_iff mc x).mp hcon)), ih]
        simp only [List.mem_cons]
        constructor
        · rintro (hy | ⟨h1, h2⟩)
          · exact Or.inl hy
          · exact Or.inr ⟨Or.inr h1, h2⟩
        · rintro (hy | ⟨(rfl | hy), hmc⟩)
          · exact Or.inl hy
          · exact absurd hmc hx
          · exact Or.inr ⟨hy, hmc⟩

theorem depsOf_mem (instr : Instruction) (mc : List Nat) (u : Nat) :
    u ∈ depsOf instr mc ↔ u ∈ eachValue instr ∧ u ∈ mc := by
  unfold depsOf
  rw [mem_depsFold]
  simp

theorem analyzeGo_get? (func : FunctionBody) (mc w : List Nat) :
    ∀ (l : List Instruction) (n i : Nat) (instr : Instruction),
      l.get? i = some instr →
      (analyzeGo func mc w l n).get? i = some
        { dependencies := depsOf instr mc
          instructions := mutatorsOf func w (n + i)
          shouldMemo := isExpensiveOperation instr func && !(depsOf instr mc).isEmpty } := by
  intro l
  induction l with
  | nil => intro n i instr h; simp at h
  | cons x xs ih =>
      intro n i instr h
      cases i with
      | zero =>
          rw [List.get?_cons_zero] at h
          cases h
          simp [analyzeGo]
      | succ j =>
          rw [List.get?_cons_succ] at h
          have := ih (n + 1) j instr h
          simp only [analyzeGo, List.get?_cons_succ]
          rw [this]
          have harith : n + 1 + j = n + (j + 1) := by omega
          rw [harith]

/-! ## C1 -/

/-- C1: for every instruction, the analysis result's `dependencies` set is
exactly the set of its consumed operand ids that are in the may-change sweep
(`getValuesThatMayChange`, seeded with Params and hook calls and propagated
along consumption), and `shouldMemo` holds iff the instruction is classified
expensive and `dependencies` is non-empty. -/
theorem c1_analysis_dependencies (func : FunctionBody) (id : Nat)
    (instr : Instruction) (h : func.get? id = some instr) :
    ∃ info, (analyze func).get? id = some info ∧
      (∀ u, u ∈ info.dependencies ↔
        u ∈ eachValue instr ∧ u ∈ getValuesThatMayChange func) ∧
      (info.shouldMemo = true ↔
        isExpensiveOperation instr func = true ∧ info.dependencies ≠ []) := by
  have hget := analyzeGo_get? func (getValuesThatMayChange func)
    (getWritableValues func) func 0 id instr h
  refine ⟨_, hget, fun u => depsOf_mem instr (getValuesThatMayChange func) u, ?_⟩
  simp [Bool.and_eq_true, Bool.not_eq_true', List.isEmpty_eq_false]

/-- C1 witness: the `ReadProperty` at id 1 of `[Param a, ReadProperty $0 .x]`
depends exactly on the may-change id 0 and is not memoized. -/
theorem c1_analysis_dependencies_witness :
    ∃ info,
      (analyze [Instruction.Param "a",
                Instruction.ReadProperty 0 (.pstr "x")]).get? 1 = some info ∧
      (∀ u, u ∈ info.dependencies ↔
        u ∈ eachValue (Instruction.ReadProperty 0 (.pstr "x")) ∧
        u ∈ getValuesThatMayChange
              [Instruction.Param "a", Instruction.ReadProperty 0 (.pstr "x")]) ∧
      (info.shouldMemo = true ↔
        isExpensiveOperation (Instruction.ReadProperty 0 (.pstr "x"))
            [Instruction.Param "a", Instruction.ReadProperty 0 (.pstr "x")] = true ∧
        info.dependencies ≠ []) :=
  c1_analysis_dependencies
    [Instruction.Param "a", Instruction.ReadProperty 0 (.pstr "x")] 1
    (Instruction.ReadProperty 0 (.pstr "x")) rfl

/-! ## C5 -/

theorem mathAny_eq (n : String) :
    expensiveFunctions.any (fun fn => strContains n (splitHead fn '.')) =
      strContains n "Math" := by
  have h1 : splitHead "Math.sqrt" '.' = "Math" := by decide
  have h2 : splitHead "Math.pow" '.' = "Math" := by decide
  have h3 : splitHead "Math.sin" '.' = "Math" := by decide
  have h4 : splitHead "Math.cos" '.' = "Math" := by decide
  simp [expensiveFunctions, h1, h2, h3, h4]

/-- C5 (amended): a Call with a present (non-empty) property name is expensive
iff that name is in the expensive-method set — the Math test is *not* reached;
only a Call whose property is absent (or empty) is tested for a receiver
resolving to a `LoadConstant` containing `"Math"`; an Object is always
expensive; everything else never is. -/
theorem c5_expensive_classification (func : FunctionBody) (instr : Instruction) :
    isExpensiveOperation instr func = true ↔
      ((∃ recv p args, instr = .Call recv (some p) args ∧ p ≠ "" ∧
          p ∈ expensiveMethods) ∨
       (∃ recv prop args name, instr = .Call recv prop args ∧ prop.getD "" = "" ∧
          func.get? recv = some (.LoadConstant name) ∧
          strContains name "Math" = true) ∨
       (∃ props, instr = .Object props)) := by
  cases instr
  case Call recv prop args =>
    simp only [isExpensiveOperation]
    by_cases hp : (prop.getD "") ≠ ""
    · rw [if_pos hp]
      constructor
      · intro hcon
        left
        cases prop with
        | none => simp at hp
        | some p =>
            exact ⟨recv, p, args, rfl, by simpa using hp,
              (contains_iff _ _).mp hcon⟩
      · rintro (⟨r, p, a, heq, hne, hmem⟩ | ⟨r, pr, a, n, heq, hnone, _, _⟩ |
          ⟨props, heq⟩)
        · cases heq
          exact (contains_iff _ _).mpr hmem
        · cases heq
          exact absurd hnone hp
        · simp at heq
    · rw [if_neg hp]
      rw [not_not] at hp
      cases hrecv : func.get? recv with
      | none =>
          constructor
          · intro hfalse
            cases hfalse
          · rintro (⟨r, p, a, heq, hne, hmem⟩ | ⟨r, pr, a, n', heq, hnone, hr, hm⟩ |
              ⟨props, heq⟩)
            · cases heq
              simp at hp
              exact absurd hp hne
            · cases heq
              rw [hrecv] at hr
              cases hr
            · simp at heq
      | some ins =>
          cases ins with
          | Call r2 p2 a2 =>
              constructor
              · intro hfalse
                cases hfalse
              · rintro (⟨r, p, a, heq, hne, hmem⟩ |
                  ⟨r, pr, a, n', heq, hnone, hr, hm⟩ | ⟨props, heq⟩)
                · cases heq
                  simp at hp
                  exact absurd hp hne
                · cases heq
                  rw [hrecv] at hr
                  simp at hr
                · simp at heq
          | Object ps2 =>
              constructor
              · intro hfalse
                cases hfalse
              · rintro (⟨r, p, a, heq, hne, hmem⟩ |
                  ⟨r, pr, a, n', heq, hnone, hr, hm⟩ | ⟨props, heq⟩)
                · cases heq
                  simp at hp
                  exact absurd hp hne
                · cases heq
                  rw [hrecv] at hr
                  simp at hr
                · simp at heq
          | ReadProperty o2 pn2 =>
              constructor
              · intro hfalse
                cases hfalse
              · rintro (⟨r, p, a, heq, hne, hmem⟩ |
                  ⟨r, pr, a, n', heq, hnone, hr, hm⟩ | ⟨props, heq⟩)
                · cases heq
                  simp at hp
                  exact absurd hp hne
                · cases heq
                  rw [hrecv] at hr
                  simp at hr
                · simp at heq
          | Declare l2 r2 =>
              constructor
              · intro hfalse
                cases hfalse
              · rintro (⟨r, p, a, heq, hne, hmem⟩ |
                  ⟨r, pr, a, n', heq, hnone, hr, hm⟩ | ⟨props, heq⟩)
                · cases heq
                  simp at hp
                  exact absurd hp hne
                · cases heq
                  rw [hrecv] at hr
                  simp at hr
                · simp at heq
          | Param nm2 =>
              constructor
              · intro hfalse
                cases hfalse
              · rintro (⟨r, p, a, heq, hne, hmem⟩ |
                  ⟨r, pr, a, n', heq, hnone, hr, hm⟩ | ⟨props, heq⟩)
                · cases heq
                  simp at hp
                  exact absurd hp hne
                · cases heq
                  rw [hrecv] at hr
                  simp at hr
                · simp at heq
          | Return v2 =>
              constructor
              · intro hfalse
                cases hfalse
              · rintro (⟨r, p, a, heq, hne, hmem⟩ |
                  ⟨r, pr, a, n', heq, hnone, hr, hm⟩ | ⟨props, heq⟩)
                · cases heq
                  simp at hp
                  exact absurd hp hne
                · cases heq
                  rw [hrecv] at hr
                  simp at hr
                · simp at heq
          | LoadConstant n =>
            have hmatch :
                (expensiveFunctions.any (fun fn =>
                  strContains n (splitHead fn '.')) = true) ↔
                  strContains n "Math" = true := by rw [mathAny_eq]
            constructor
            · intro hm
              exact Or.inr (Or.inl ⟨recv, prop, args, n, rfl, hp, hrecv,
                hmatch.mp hm⟩)
            · rintro (⟨r, p, a, heq, hne, hmem⟩ |
                ⟨r, pr, a, n', heq, hnone, hr, hm⟩ | ⟨props, heq⟩)
              · cases heq
                simp at hp
                exact absurd hp hne
              · cases heq
                rw [hrecv] at hr
                cases hr
                exact hmatch.mpr hm
              · simp at heq
  case Object props =>
    simp only [isExpensiveOperation]
    constructor
    · intro _
      exact Or.inr (Or.inr ⟨props, rfl⟩)
    · intro _
      trivial
  all_goals
    constructor
    · intro hfalse
      simp [isExpensiveOperation] at hfalse
    · rintro (⟨r, p, a, heq, _, _⟩ | ⟨r, pr, a, n', heq, _, _, _⟩ | ⟨ps, heq⟩) <;>
        simp at heq

/-- C5 counterexample: in `[LoadConstant "Math", Call $0.sqrt(4)]` the Call's
receiver resolves to a `LoadConstant` containing `"Math"`, its property
`"sqrt"` is outside the method set, and the code classifies it NOT expensive —
the claim's "In particular" sentence says it would be expensive. -/
theorem c5_counterexample :
    isExpensiveOperation (.Call 0 (some "sqrt") [.Literal (.num 4)])
        [Instruction.LoadConstant "Math",
         .Call 0 (some "sqrt") [.Literal (.num 4)]] = false ∧
    ([Instruction.LoadConstant "Math",
      .Call 0 (some "sqrt") [.Literal (.num 4)]].get? 0 =
        some (.LoadConstant "Math")) ∧
    strContains "Math" "Math" = true ∧
    ¬ "sqrt" ∈ expensiveMethods := by
  refine ⟨rfl, rfl, rfl, ?_⟩
  decide

/-! ## C6 -/

/-- The scan predicate of `getDeclaration`: a `Declare` with matching `lhs` or
a `Param` with matching `name`. -/
def declMatches (ins : Instruction) (name : String) : Bool :=
  match ins with
  | .Declare lhs _ => lhs = name
  | .Param nm => nm = name
  | _ => false

theorem getDeclarationGo_step (x : Instruction) (xs : List Instruction)
    (name : String) (k : Nat) :
    getDeclarationGo (x :: xs) name k =
      if declMatches x name then some k else getDeclarationGo xs name (k + 1) := by
  cases x <;> simp [getDeclarationGo, declMatches]

theorem getDeclarationGo_spec (name : String) :
    ∀ (l : List Instruction) (k id : Nat),
      getDeclarationGo l name k = some id ↔
        ∃ j, id = k + j ∧
          (∃ ins, l.get? j = some ins ∧ declMatches ins name = true) ∧
          (∀ j' ins', j' < j → l.get? j' = some ins' →
            declMatches ins' name = false) := by
  intro l
  induction l with
  | nil =>
      intro k id
      simp [getDeclarationGo]
  | cons x xs ih =>
      intro k id
      rw [getDeclarationGo_step]
      by_cases hx : declMatches x name = true
      · rw [if_pos hx]
        constructor
        · intro h
          cases h
          exact ⟨0, by omega, ⟨x, rfl, hx⟩, fun j' ins' hj' _ => absurd hj' (by omega)⟩
        · rintro ⟨j, hid, ⟨ins, hget, hm⟩, hmin⟩
          cases j with
          | zero => simp [hid]
          | succ j0 =>
              have := hmin 0 x (by omega) rfl
              rw [hx] at this
              cases this
      · rw [if_neg hx]
        rw [ih (k + 1) id]
        constructor
        · rintro ⟨j, hid, ⟨ins, hget, hm⟩, hmin⟩
          refine ⟨j + 1, by omega, ⟨ins, by simpa using hget, hm⟩, ?_⟩
          intro j' ins' hj' hget'
          cases j' with
          | zero =>
              rw [List.get?_cons_zero] at hget'
              cases hget'
              simp only [Bool.not_eq_true] at hx
              exact hx
          | succ j0 =>
              rw [List.get?_cons_succ] at hget'
              exact hmin j0 ins' (by omega) hget'
        · rintro ⟨j, hid, ⟨ins, hget, hm⟩, hmin⟩
          cases j with
          | zero =>
              rw [List.get?_cons_zero] at hget
              cases hget
              exact absurd hm hx
          | succ j0 =>
              rw [List.get?_cons_succ] at hget
              refine ⟨j0, by omega, ⟨ins, hget, hm⟩, ?_⟩
              intro j' ins' hj' hget'
              exact hmin (j' + 1) ins' (by omega) (by simpa using hget')

/-- C6 (amended): name resolution is first-declaration-wins — `getDeclaration`
returns the id of the *earliest* prior `Declare`/`Param` carrying the name
(every smaller id does not match); when nothing matches, lowering a bare
identifier emits a `LoadConstant` placeholder and returns its id. -/
theorem c6_first_declaration_wins :
    (∀ (func : List Instruction) (name : String) (id : Nat),
      getDeclaration func name = some id ↔
        (∃ ins, func.get? id = some ins ∧ declMatches ins name = true) ∧
        (∀ j ins', j < id → func.get? j = some ins' →
          declMatches ins' name = false)) ∧
    (∀ (name : String) (s : LowerState), getDeclaration s.instrs name = none →
      lowerExpr (.ident name) s =
        .ok (⟨s.instrs ++ [.LoadConstant name],
              s.logs ++ [.instrLog s.instrs.length]⟩,
             s.instrs.length)) := by
  constructor
  · intro func name id
    unfold getDeclaration
    rw [getDeclarationGo_spec]
    constructor
    · rintro ⟨j, hid, hex, hmin⟩
      have : j = id := by omega
      subst this
      exact ⟨hex, fun j' ins' h1 h2 => hmin j' ins' h1 h2⟩
    · rintro ⟨hex, hmin⟩
      exact ⟨id, by omega, hex, fun j' ins' h1 h2 => hmin j' ins' h1 h2⟩
  · intro name s h
    simp only [lowerExpr, h]
    rfl

/-- C6 witness: in the empty state, `x` is unresolved and lowering it emits
the `LoadConstant "x"` placeholder at id 0. -/
theorem c6_first_declaration_wins_witness :
    lowerExpr (.ident "x") ⟨[], []⟩ =
      .ok (⟨[.LoadConstant "x"], [.instrLog 0]⟩, 0) := by
  have h := c6_first_declaration_wins.2 "x" ⟨[], []⟩ rfl
  simpa using h

/-- C6 counterexample: lowering `const x = 1; const x = 2; return x;` resolves
the `return x` to id 1 — the *first* `Declare "x"` — although a more recent
`Declare "x"` exists at id 3; the claim predicts id 3. -/
theorem c6_counterexample :
    (readInstructions ⟨[],
        .cons (.varDecl "const"
          (.cons (.declarator (.lident "x") (some (.numLit 1))) .nil))
        (.cons (.varDecl "const"
          (.cons (.declarator (.lident "x") (some (.numLit 2))) .nil))
        (.cons (.ret (some (.ident "x"))) .nil))⟩).map (fun st => st.instrs) =
      .ok [.LoadConstant "1", .Declare "x" 0, .LoadConstant "2",
           .Declare "x" 2, .Return (some 1)] ∧
    (1 : Nat) ≠ 3 := by
  exact ⟨rfl, by omega⟩

/-! ## C9 -/

theorem analyzeGo_length (func : FunctionBody) (mc w : List Nat) :
    ∀ (l : List Instruction) (n : Nat),
      (analyzeGo func mc w l n).length = l.length := by
  intro l
  induction l with
  | nil => intro n; rfl
  | cons x xs ih =>
      intro n
      simp only [analyzeGo, List.length_cons, ih]

theorem analyze_length (func : FunctionBody) :
    (analyze func).length = func.length :=
  analyzeGo_length func _ _ func 0

/-- C9: a declarator without an initializer raises the hard
`Variable must have initializer` error and aborts `readInstructions`; a
non-identifier key in a destructured parameter raises the corresponding hard
error; whereas an unrecognized node kind (e.g. any `unsupportedE`/`unsupportedS`
node, or a `BinaryExpression`) degrades to a logged `unsupported_<type>`
`LoadConstant` placeholder, lowering continues, and analysis stays total. -/
theorem c9_error_handling :
    (∀ (k : String) (lv : BLVal) (ds : BDecls) (s : LowerState),
      lowerStmt (.varDecl k (.cons (.declarator lv none) ds)) s =
        .error "Invalid syntax. Variable must have initializer") ∧
    (∀ (k : String) (lv : BLVal) (ds : BDecls) (rest : BStmts),
      readInstructions ⟨[], .cons (.varDecl k (.cons (.declarator lv none) ds)) rest⟩ =
        .error "Invalid syntax. Variable must have initializer") ∧
    (∀ (v : BExpr) (ms : List BMember) (ps : List BParamNode) (stmts : BStmts),
      readInstructions ⟨.objPat (.prop (.numLit 3) v :: ms) :: ps, stmts⟩ =
        .error "Invalid syntax. Cannot handle non-identifier key in destructured param") ∧
    (∀ (ty : String) (s : LowerState),
      lowerExpr (.unsupportedE ty) s =
        .ok (⟨s.instrs ++ [.LoadConstant ("unsupported_" ++ ty)],
              s.logs ++ [.skipUnsupported ty, .instrLog s.instrs.length]⟩,
             s.instrs.length)) ∧
    (∀ (l r : BExpr) (s : LowerState),
      lowerExpr (.binary l r) s =
        .ok (⟨s.instrs ++ [.LoadConstant "unsupported_BinaryExpression"],
              s.logs ++ [.skipUnsupported "BinaryExpression",
                .instrLog s.instrs.length]⟩,
             s.instrs.length)) ∧
    (∀ (ty : String) (s : LowerState),
      lowerStmt (.unsupportedS ty) s =
        .ok (⟨s.instrs ++ [.LoadConstant ("unsupported_" ++ ty)],
              s.logs ++ [.skipUnsupported ty, .instrLog s.instrs.length]⟩,
             s.instrs.length)) ∧
    (∀ func : FunctionBody, (analyze func).length = func.length) := by
  refine ⟨fun k lv ds s => by cases lv <;> rfl,
    fun k lv ds rest => by cases lv <;> rfl, fun v ms ps stmts => rfl,
    ?_, ?_, ?_, analyze_length⟩
  · intro ty s
    simp [lowerExpr, lowerUnsupported, pushInstr]
  · intro l r s
    simp [lowerExpr, lowerUnsupported, pushInstr, BExpr.tyName]
  · intro ty s
    simp [lowerStmt, lowerUnsupported, pushInstr]

/-! ## C8 -/

theorem depsOf_nil (instr : Instruction) : depsOf instr [] = [] := by
  rcases h : depsOf instr [] with _ | ⟨a, l⟩
  · rfl
  · exfalso
    have ha := (depsOf_mem instr [] a).mp (h ▸ List.mem_cons_self a l)
    exact absurd ha.2 (List.not_mem_nil a)

theorem mayChangeGo_nil (func : FunctionBody) :
    ∀ (l : List Instruction) (n : Nat),
      (∀ ins ∈ l, ins.isParam = false ∧ isHookCall ins func = false) →
      mayChangeGo func l n [] = [] := by
  intro l
  induction l with
  | nil => intro n _; rfl
  | cons x xs ih =>
      intro n h
      have hx := h x (List.mem_cons_self x xs)
      have hacc :
          (if x.isParam || isHookCall x func then setAdd ([] : List Nat) n
           else if (eachValue x).any (fun used => ([] : List Nat).contains used) then
             setAdd ([] : List Nat) n
           else []) = [] := by
        simp [hx.1, hx.2]
      simp only [mayChangeGo, hacc]
      exact ih (n + 1) (fun ins hins => h ins (List.mem_cons_of_mem x hins))

theorem analyzeGo_nil_info (func : FunctionBody) (w : List Nat) :
    ∀ (l : List Instruction) (n : Nat) (info : ValueInfo),
      info ∈ analyzeGo func [] w l n →
      info.dependencies = [] ∧ info.shouldMemo = false := by
  intro l
  induction l with
  | nil => intro n info h; cases h
  | cons x xs ih =>
      intro n info h
      simp only [analyzeGo, List.mem_cons] at h
      rcases h with rfl | h
      · refine ⟨depsOf_nil x, ?_⟩
        simp [depsOf_nil x]
      · exact ih (n + 1) info h

theorem scopeClassesGo_const (infos : List ValueInfo)
    (hmemo : ∀ info ∈ infos, shouldMemoize info = false) :
    ∀ (l : List Instruction) (n : Nat) (acc : List (List Nat)),
      scopeClassesGo infos l n acc = acc := by
  intro l
  induction l with
  | nil => intro n acc; rfl
  | cons x xs ih =>
      intro n acc
      have hstep :
          (match infos.get? n with
           | some info =>
               if shouldMemoize info then dsUnion acc (info.instructions ++ [n])
               else acc
           | none => acc) = acc := by
        cases hget : infos.get? n with
        | none => rfl
        | some info =>
            show (if shouldMemoize info = true then
              dsUnion acc (info.instructions ++ [n]) else acc) = acc
            rw [hmemo info (List.get?_mem hget)]
            rfl
      simp only [scopeClassesGo, hstep]
      exact ih (n + 1) acc

theorem emitRange_not_block (func : FunctionBody) (lo hi : Nat) :
    ∀ ri ∈ emitRange func lo hi, ri.isBlock = false := by
  intro ri hri
  rcases List.mem_filterMap.mp hri with ⟨i, _, hmap⟩
  cases hget : func.get? i with
  | none => rw [hget] at hmap; cases hmap
  | some ins =>
      rw [hget] at hmap
      cases hmap
      rfl

theorem codegenGo_no_blocks (func : FunctionBody) (infos : List ValueInfo) :
    ∀ (L : List ReactiveInstruction) (mi : Nat),
      (∀ ri ∈ L, ri.isBlock = false) → codegenGo func infos L mi = [] := by
  intro L
  induction L with
  | nil => intro mi _; rfl
  | cons x xs ih =>
      intro mi h
      cases x with
      | instr i ins => exact ih mi (fun ri hri => h ri (List.mem_cons_of_mem _ hri))
      | block bi bd bdeps =>
          have := h _ (List.mem_cons_self _ _)
          cases this

/-- C8 (amended): in a body with no `Param` instruction and no hook call,
the may-change sweep is empty, every `dependencies` set is empty, no scope
range (hence no `ReactiveBlock` at all) forms, and `codegenJS` emits nothing.
(The independent statement-level rewrite is *not* governed by this condition;
see the counterexample.) -/
theorem c8_no_params_no_hooks (func : FunctionBody)
    (h : ∀ ins ∈ func, ins.isParam = false ∧ isHookCall ins func = false) :
    getValuesThatMayChange func = [] ∧
    (∀ info ∈ analyze func, info.dependencies = []) ∧
    getInstructionScopeRanges func (analyze func) = [] ∧
    (∀ ri ∈ makeReactiveInstrs func (analyze func), ri.isBlock = false) ∧
    codegenJS func (analyze func) = [] := by
  have hmc : getValuesThatMayChange func = [] := mayChangeGo_nil func func 0 h
  have hinfo : ∀ info ∈ analyze func,
      info.dependencies = [] ∧ info.shouldMemo = false := by
    intro info hin
    apply analyzeGo_nil_info func (getWritableValues func) func 0 info
    rw [← hmc]
    exact hin
  have hmemo : ∀ info ∈ analyze func, shouldMemoize info = false := by
    intro info hin
    unfold shouldMemoize
    rw [(hinfo info hin).2]
    rfl
  have hclasses : scopeClassesGo (analyze func) func 0 [] = [] :=
    scopeClassesGo_const (analyze func) hmemo func 0 []
  have hscopes : getInstructionScopeRanges func (analyze func) = [] := by
    unfold getInstructionScopeRanges
    rw [hclasses]
    rfl
  have hmk : ∀ ri ∈ makeReactiveInstrs func (analyze func), ri.isBlock = false := by
    intro ri hri
    unfold makeReactiveInstrs at hri
    rw [hscopes] at hri
    exact emitRange_not_block func 0 func.length ri hri
  refine ⟨hmc, fun info hin => (hinfo info hin).1, hscopes, hmk, ?_⟩
  unfold codegenJS
  apply codegenGo_no_blocks
  intro ri hri
  rcases List.mem_map.mp hri with ⟨ri0, hri0, rfl⟩
  have := hmk ri0 hri0
  cases ri0 with
  | instr i ins => rfl
  | block bi bd bdeps => cases this

/-- C8 witness: `[LoadConstant "x", Return $0]` has no Param and no hook call;
all dependency sets are empty and nothing is generated. -/
theorem c8_no_params_no_hooks_witness :
    getValuesThatMayChange [Instruction.LoadConstant "x", .Return (some 0)] = [] ∧
    (∀ info ∈ analyze [Instruction.LoadConstant "x", .Return (some 0)],
      info.dependencies = []) ∧
    getInstructionScopeRanges [Instruction.LoadConstant "x", .Return (some 0)]
      (analyze [Instruction.LoadConstant "x", .Return (some 0)]) = [] ∧
    (∀ ri ∈ makeReactiveInstrs [Instruction.LoadConstant "x", .Return (some 0)]
      (analyze [Instruction.LoadConstant "x", .Return (some 0)]), ri.isBlock = false) ∧
    codegenJS [Instruction.LoadConstant "x", .Return (some 0)]
      (analyze [Instruction.LoadConstant "x", .Return (some 0)]) = [] :=
  c8_no_params_no_hooks [Instruction.LoadConstant "x", .Return (some 0)] (by decide)

/-- Observation: the statement is a variable declaration whose first
declarator's initializer is a direct `useMemo(...)` call. -/
def stmtInitIsUseMemo : BStmt → Bool
  | .varDecl _ (.cons (.declarator _ (some (.callE (.ident "useMemo") _))) _) => true
  | _ => false

def firstStmtInitIsUseMemo : BStmts → Bool
  | .cons st _ => stmtInitIsUseMemo st
  | .nil => false

/-- C8 counterexample: `function F() { const c = xs.map(f); }` lowers to a body
with no Param and no hook call, yet the statement-level rewrite still replaces
the declaration's initializer with a `useMemo` call — the output is *not*
structurally unchanged. -/
theorem c8_counterexample :
    (readInstructions ⟨[],
        .cons (.varDecl "const" (.cons (.declarator (.lident "c")
          (some (.callE (.member (.ident "xs") (.ident "map") false)
            (.cons (.ident "f") .nil)))) .nil)) .nil⟩).map (fun st => st.instrs) =
      .ok [.LoadConstant "xs", .LoadConstant "f",
           .Call 0 (some "map") [.RValue 1], .Declare "c" 2] ∧
    (∀ ins ∈ [Instruction.LoadConstant "xs", .LoadConstant "f",
           .Call 0 (some "map") [.RValue 1], .Declare "c" 2],
      ins.isParam = false ∧
      isHookCall ins [Instruction.LoadConstant "xs", .LoadConstant "f",
           .Call 0 (some "map") [.RValue 1], .Declare "c" 2] = false) ∧
    firstStmtInitIsUseMemo
      (rewriteStmts (.cons (.varDecl "const" (.cons (.declarator (.lident "c")
          (some (.callE (.member (.ident "xs") (.ident "map") false)
            (.cons (.ident "f") .nil)))) .nil)) .nil)) = true ∧
    firstStmtInitIsUseMemo
      (.cons (.varDecl "const" (.cons (.declarator (.lident "c")
          (some (.callE (.member (.ident "xs") (.ident "map") false)
            (.cons (.ident "f") .nil)))) .nil)) .nil) = false ∧
    rewriteStmts (.cons (.varDecl "const" (.cons (.declarator (.lident "c")
          (some (.callE (.member (.ident "xs") (.ident "map") false)
            (.cons (.ident "f") .nil)))) .nil)) .nil) ≠
      (.cons (.varDecl "const" (.cons (.declarator (.lident "c")
          (some (.callE (.member (.ident "xs") (.ident "map") false)
            (.cons (.ident "f") .nil)))) .nil)) .nil) := by
  refine ⟨rfl, by decide, rfl, rfl, ?_⟩
  intro h
  have h1 : firstStmtInitIsUseMemo
      (rewriteStmts (.cons (.varDecl "const" (.cons (.declarator (.lident "c")
          (some (.callE (.member (.ident "xs") (.ident "map") false)
            (.cons (.ident "f") .nil)))) .nil)) .nil)) = true := rfl
  rw [h] at h1
  exact absurd h1 (by simp [firstStmtInitIsUseMemo, stmtInitIsUseMemo])

/-! ## C3 -/

theorem charsStart_append : ∀ (p rest : List Char), charsStart (p ++ rest) p = true := by
  intro p
  induction p with
  | nil => intro rest; cases rest <;> rfl
  | cons c cs ih =>
      intro rest
      simp [charsStart, ih]

/-- Observation: a `const memoized<...> = useMemo(() => ..., [...])`
declaration — the only statement shape `codegenJS` can emit. -/
def isMemoDecl : BStmt → Bool
  | .varDecl k (.cons (.declarator (.lident nm) (some (.callE (.ident f)
      (.cons (.arrow [] (.exprB _)) (.cons (.arrayE _) .nil))))) .nil) =>
      k = "const" && f = "useMemo" && charsStart nm.toList "memoized".toList
  | _ => false

theorem codegenGo_all_memo (func : FunctionBody) (infos : List ValueInfo) :
    ∀ (L : List ReactiveInstruction) (mi : Nat),
      (codegenGo func infos L mi).all isMemoDecl = true := by
  intro L
  induction L with
  | nil => intro mi; rfl
  | cons x xs ih =>
      intro mi
      cases x with
      | instr i ins => exact ih mi
      | block bi bd bdeps =>
          simp only [codegenGo]
          by_cases hd : bdeps.isEmpty
          · rw [if_pos hd]
            exact ih mi
          · rw [if_neg hd]
            cases hfsm : firstShouldMemo infos bi with
            | none => exact ih mi
            | some pr =>
                rcases pr with ⟨id0, mainOp⟩
                rw [List.all_cons]
                have hst : isMemoDecl (BStmt.varDecl "const"
                    (.cons (.declarator (.lident ("memoized" ++ toString mi))
                      (some (.callE (.ident "useMemo")
                        (.cons (.arrow [] (.exprB (instrToExpression func
                            (func.length + 1) mainOp)))
                          (.cons (.arrayE (codegenGo.exprsToBArgs
                            ((getDependencyNames bdeps func).map BExpr.ident)))
                            .nil))))) .nil)) = true := by
                  show (("const" : String) = "const" && ("useMemo" : String) = "useMemo" &&
                    charsStart ("memoized" ++ toString mi).toList "memoized".toList) = true
                  have : ("memoized" ++ toString mi).toList =
                      "memoized".toList ++ (toString mi).toList := by
                    simp [String.toList, String.data_append]
                  rw [this, charsStart_append]
                  rfl
                rw [hst, ih (mi + 1)]
                rfl

/-- C3 (amended): the code generator's output never contains a structural
equivalent of a pass-through instruction: every statement it emits is a
`const memoized<N> = useMemo(..., [...])` declaration derived from a
`ReactiveBlock`, and when the partition contains no block the output is
empty (pass-throughs are preserved by the caller, not regenerated). -/
theorem c3_codegen_only_memo (func : FunctionBody) (infos : List ValueInfo) :
    (codegenJS func infos).all isMemoDecl = true ∧
    ((makeReactiveInstrs func infos).all (fun ri => !ri.isBlock) = true →
      codegenJS func infos = []) := by
  constructor
  · exact codegenGo_all_memo func infos _ 0
  · intro hall
    unfold codegenJS
    apply codegenGo_no_blocks
    intro ri hri
    rcases List.mem_map.mp hri with ⟨ri0, hri0, rfl⟩
    have h0 := List.all_eq_true.mp hall ri0 hri0
    cases ri0 with
    | instr i ins => rfl
    | block bi bd bdeps => simp [ReactiveInstruction.isBlock] at h0

/-- C3 witness: for the body `[Return]` the whole partition is pass-throughs
and the code generator emits nothing. -/
theorem c3_codegen_only_memo_witness :
    codegenJS [Instruction.Return none] (analyze [Instruction.Return none]) = [] :=
  (c3_codegen_only_memo [Instruction.Return none]
    (analyze [Instruction.Return none])).2 (by decide)

/-- C3 counterexample: the partitioned sequence for `[Return]` consists of the
pass-through `Return` instruction, yet the code generator's output statement
sequence is empty — it contains no structural equivalent of that `Return`
(nor of any other pass-through), contradicting the claim. -/
theorem c3_counterexample :
    makeReactiveInstrs [Instruction.Return none]
        (analyze [Instruction.Return none]) =
      [.instr 0 (.Return none)] ∧
    codegenJS [Instruction.Return none] (analyze [Instruction.Return none]) = [] :=
  ⟨rfl, rfl⟩

/-! ## C7 -/

/-- Observation: the identifier names of an argument list, when every element
is a bare identifier. -/
def identNames : BArgs → Option (List String)
  | .nil => some []
  | .cons (.ident n) rest => (identNames rest).map (fun l => n :: l)
  | _ => none

/-- Observation: the dependency-array identifier names of a statement whose
first declarator was rewritten to `useMemo(thunk, [deps])`. -/
def initUseMemoDeps : BStmt → Option (List String)
  | .varDecl _ (.cons (.declarator _ (some (.callE (.ident "useMemo")
      (.cons _ (.cons (.arrayE deps) .nil))))) _) => identNames deps
  | _ => none

def firstUseMemoDeps : BStmts → Option (List String)
  | .cons st _ => initUseMemoDeps st
  | .nil => none

/-- The Scenario A function `function F(a, b) { const c = a.map(x => x * b);
return c; }` in host-AST form. -/
def scenarioA : BFunction :=
  ⟨[.pident "a", .pident "b"],
   .cons (.varDecl "const" (.cons (.declarator (.lident "c")
      (some (.callE (.member (.ident "a") (.ident "map") false)
        (.cons (.arrow ["x"] (.exprB (.binary (.ident "x") (.ident "b"))))
          .nil)))) .nil))
   (.cons (.ret (some (.ident "c"))) .nil)⟩

/-- The IR Scenario A lowers to. -/
def scenarioABody : FunctionBody :=
  [.Param "a", .Param "b", .LoadConstant "function",
   .Call 0 (some "map") [.RValue 2], .Declare "c" 3, .Return (some 4)]

/-- C7 counterexample: for Scenario A the `.map` Call (id 3) has IR-level
dependencies `[0]` — only `a`; `b` (id 1) is not a dependency because the
arrow is lowered as an opaque `LoadConstant`.  And the statement-level rewrite
produces the dependency list `[a, x, b]` (the free-identifier walk includes
the arrow's own parameter `x`), not `[a, b]`. -/
theorem c7_counterexample :
    (readInstructions scenarioA).map (fun st => st.instrs) = .ok scenarioABody ∧
    (analyze scenarioABody).get? 3 =
      some { dependencies := [0], instructions := [], shouldMemo := true } ∧
    ¬ (1 : Nat) ∈ [0] ∧
    firstUseMemoDeps (rewriteStmts scenarioA.body) = some ["a", "x", "b"] ∧
    some ["a", "x", "b"] ≠ some ["a", "b"] := by
  refine ⟨rfl, rfl, by decide, rfl, by decide⟩

/-- C7 (amended): Scenario A lowers to the expected IR; the `.map` Call has
dependencies `{a}` and `shouldMemo`; its union-find class is a singleton so no
scope range forms and `codegenJS` emits nothing; the independent rewrite
replaces the declaration's initializer in place with a `useMemo` call whose
dependency list is `[a, x, b]`. -/
theorem c7_scenario_a :
    (readInstructions scenarioA).map (fun st => st.instrs) = .ok scenarioABody ∧
    (analyze scenarioABody).get? 3 =
      some { dependencies := [0], instructions := [], shouldMemo := true } ∧
    getInstructionScopeRanges scenarioABody (analyze scenarioABody) = [] ∧
    codegenJS scenarioABody (analyze scenarioABody) = [] ∧
    firstStmtInitIsUseMemo (rewriteStmts scenarioA.body) = true ∧
    firstUseMemoDeps (rewriteStmts scenarioA.body) = some ["a", "x", "b"] :=
  ⟨rfl, rfl, rfl, rfl, rfl, rfl⟩

/-! ## C2 and C10: partitioner machinery -/

theorem mem_range'_iff {s n m : Nat} : m ∈ List.range' s n ↔ s ≤ m ∧ m < s + n := by
  rw [List.mem_range']
  constructor
  · rintro ⟨i, hi, rfl⟩
    omega
  · intro h
    exact ⟨m - s, by omega, by omega⟩

theorem foldl_min_le (l : List Nat) : ∀ a : Nat, l.foldl Nat.min a ≤ a := by
  induction l with
  | nil => intro a; exact le_refl a
  | cons x xs ih =>
      intro a
      exact le_trans (ih (Nat.min a x)) (Nat.min_le_left a x)

theorem le_foldl_max (l : List Nat) : ∀ a : Nat, a ≤ l.foldl Nat.max a := by
  induction l with
  | nil => intro a; exact le_refl a
  | cons x xs ih =>
      intro a
      exact le_trans (Nat.le_max_left a x) (ih (Nat.max a x))

theorem listMin_le_listMax (x : Nat) (xs : List Nat) :
    listMin (x :: xs) ≤ listMax (x :: xs) :=
  le_trans (foldl_min_le xs x) (le_foldl_max xs x)

/-- Invariants of the interval-merge loop: on a start-sorted input whose
ranges are well-formed, the output ranges are well-formed, pairwise strictly
disjoint ascending, and the head keeps the first start. -/
theorem mergeLoop_spec :
    ∀ (l : List Scope) (prev : Scope),
      (∀ x ∈ l, prev.lo ≤ x.lo) →
      List.Pairwise scopeLE l →
      prev.lo ≤ prev.hi →
      (∀ x ∈ l, x.lo ≤ x.hi) →
      (∀ r ∈ mergeLoop prev l, prev.lo ≤ r.lo ∧ r.lo ≤ r.hi) ∧
      List.Pairwise (fun a b : Scope => a.hi < b.lo) (mergeLoop prev l) ∧
      (∃ hd tl, mergeLoop prev l = hd :: tl ∧ hd.lo = prev.lo) := by
  intro l
  induction l with
  | nil =>
      intro prev _ _ hph _
      refine ⟨?_, List.pairwise_singleton _ _, prev, [], rfl, rfl⟩
      intro r hr
      have hr' : r = prev := by
        have h2 : r ∈ [prev] := hr
        simpa using h2
      subst hr'
      exact ⟨le_refl _, hph⟩
  | cons r rest ih =>
      intro prev hall hpw hph hxh
      have hpwr := List.pairwise_cons.mp hpw
      by_cases hc : r.lo ≤ prev.hi
      · have heq : mergeLoop prev (r :: rest) =
            mergeLoop ⟨prev.lo, Nat.max prev.hi r.hi⟩ rest := by
          simp only [mergeLoop, if_pos hc]
        rw [heq]
        exact ih ⟨prev.lo, Nat.max prev.hi r.hi⟩
          (fun x hx => hall x (List.mem_cons_of_mem _ hx))
          hpwr.2
          (le_trans hph (Nat.le_max_left _ _))
          (fun x hx => hxh x (List.mem_cons_of_mem _ hx))
      · have hlt : prev.hi < r.lo := Nat.not_le.mp hc
        have heq : mergeLoop prev (r :: rest) = prev :: mergeLoop r rest := by
          simp only [mergeLoop, if_neg hc]
        rw [heq]
        obtain ⟨ih1, ih2, hd, tl, hdeq, hdlo⟩ :=
          ih r (fun x hx => hpwr.1 x hx) hpwr.2
            (hxh r (List.mem_cons_self _ _))
            (fun x hx => hxh x (List.mem_cons_of_mem _ hx))
        refine ⟨?_, ?_, prev, mergeLoop r rest, rfl, rfl⟩
        · intro x hx
          rcases List.mem_cons.mp hx with rfl | hx
          · exact ⟨le_refl _, hph⟩
          · obtain ⟨h1, h2⟩ := ih1 x hx
            exact ⟨le_trans (hall r (List.mem_cons_self _ _)) h1, h2⟩
        · rw [List.pairwise_cons]
          refine ⟨?_, ih2⟩
          intro y hy
          have := (ih1 y hy).1
          omega

theorem getInstructionScopeRanges_eq (func : FunctionBody) (infos : List ValueInfo) :
    getInstructionScopeRanges func infos =
      if ((scopeClassesGo infos func 0 []).filter (fun g => g.length > 1)).isEmpty
      then []
      else mergeRanges (List.insertionSort scopeLE
        (((scopeClassesGo infos func 0 []).filter (fun g => g.length > 1)).map
          (fun s => ⟨listMin s, listMax s⟩))) := rfl

/-- The scope ranges of the partitioner are well-formed and pairwise strictly
disjoint in ascending order. -/
theorem scope_ranges_spec (func : FunctionBody) (infos : List ValueInfo) :
    (∀ r ∈ getInstructionScopeRanges func infos, r.lo ≤ r.hi) ∧
    List.Pairwise (fun a b : Scope => a.hi < b.lo)
      (getInstructionScopeRanges func infos) := by
  rw [getInstructionScopeRanges_eq]
  by_cases hemp :
      ((scopeClassesGo infos func 0 []).filter (fun g => g.length > 1)).isEmpty
  · rw [if_pos hemp]
    exact ⟨fun r hr => absurd hr (List.not_mem_nil r), List.Pairwise.nil⟩
  · rw [if_neg hemp]
    have hlohi : ∀ r ∈ ((scopeClassesGo infos func 0 []).filter
        (fun g => g.length > 1)).map (fun s => (⟨listMin s, listMax s⟩ : Scope)),
        r.lo ≤ r.hi := by
      intro r hr
      rcases List.mem_map.mp hr with ⟨cls, hcls, rfl⟩
      have hlen := (List.mem_filter.mp hcls).2
      rcases cls with _ | ⟨x, xs⟩
      · simp at hlen
      · exact listMin_le_listMax x xs
    have hsorted := List.sorted_insertionSort scopeLE
      (((scopeClassesGo infos func 0 []).filter (fun g => g.length > 1)).map
        (fun s => (⟨listMin s, listMax s⟩ : Scope)))
    have hmemkeep : ∀ r ∈ List.insertionSort scopeLE
        (((scopeClassesGo infos func 0 []).filter (fun g => g.length > 1)).map
          (fun s => (⟨listMin s, listMax s⟩ : Scope))), r.lo ≤ r.hi := by
      intro r hr
      exact hlohi r ((List.perm_insertionSort scopeLE _).mem_iff.mp hr)
    rcases hsortEq : List.insertionSort scopeLE
        (((scopeClassesGo infos func 0 []).filter (fun g => g.length > 1)).map
          (fun s => (⟨listMin s, listMax s⟩ : Scope))) with _ | ⟨hd, tl⟩
    · rw [hsortEq]
      exact ⟨fun r hr => absurd hr (List.not_mem_nil r), List.Pairwise.nil⟩
    · rw [hsortEq]
      rw [hsortEq] at hsorted hmemkeep
      have hpw := List.pairwise_cons.mp hsorted
      obtain ⟨m1, m2, _⟩ := mergeLoop_spec tl hd hpw.1 hpw.2
        (hmemkeep hd (List.mem_cons_self _ _))
        (fun x hx => hmemkeep x (List.mem_cons_of_mem _ hx))
      exact ⟨fun r hr => (m1 r hr).2, m2⟩

/-- All instruction ids of a partitioned sequence, in emission order. -/
def allIds : List ReactiveInstruction → List Nat
  | [] => []
  | ri :: rest => riIds ri ++ allIds rest

theorem allIds_append : ∀ (a b : List ReactiveInstruction),
    allIds (a ++ b) = allIds a ++ allIds b := by
  intro a
  induction a with
  | nil => intro b; rfl
  | cons x xs ih =>
      intro b
      show riIds x ++ allIds (xs ++ b) = riIds x ++ allIds xs ++ allIds b
      rw [ih b, List.append_assoc]

theorem get?_isSome_iff_lt {α : Type} (l : List α) (i : Nat) :
    (∃ a, l.get? i = some a) ↔ i < l.length := by
  constructor
  · rintro ⟨a, ha⟩
    by_contra h
    rw [List.get?_len_le (by omega)] at ha
    cases ha
  · intro h
    rcases List.get?_eq_some.mpr ⟨h, rfl⟩ with ha
    exact ⟨_, ha⟩

theorem emitRange_allIds (func : FunctionBody) (lo hi : Nat) :
    allIds (emitRange func lo hi) =
      (List.range' lo (hi - lo)).filter (fun i => decide (i < func.length)) := by
  unfold emitRange
  generalize List.range' lo (hi - lo) = L
  induction L with
  | nil => rfl
  | cons i L ih =>
      simp only [List.filterMap_cons, List.filter_cons]
      cases hget : func.get? i with
      | none =>
          have hlen : decide (i < func.length) = false :=
            decide_eq_false (by
              have := List.get?_eq_none.mp hget
              omega)
          simp only [Option.map_none', hlen]
          exact ih
      | some ins =>
          have hlen : decide (i < func.length) = true := by
            have h := (get?_isSome_iff_lt func i).mp ⟨ins, hget⟩
            simpa using h
          simp only [Option.map_some', hlen, allIds, riIds]
          rw [ih]
          rfl

theorem foldBlock_fst (func : FunctionBody) (infos : List ValueInfo) :
    ∀ (L : List Nat) (acc : List (Nat × Instruction) × List Nat × List Nat),
      ((L.foldl (blockStep func infos) acc).1).map Prod.fst =
      acc.1.map Prod.fst ++ L.filter (fun i => decide (i < func.length)) := by
  intro L
  induction L with
  | nil => intro acc; simp
  | cons i L ih =>
      intro acc
      simp only [List.foldl_cons, List.filter_cons]
      cases hget : func.get? i with
      | none =>
          have hlen : decide (i < func.length) = false :=
            decide_eq_false (by
              have := List.get?_eq_none.mp hget
              omega)
          have hstep : blockStep func infos acc i = acc := by
            unfold blockStep
            rw [hget]
          rw [hstep, hlen, ih acc]
          simp
      | some ins =>
          have hlen : decide (i < func.length) = true := by
            have h := (get?_isSome_iff_lt func i).mp ⟨ins, hget⟩
            simpa using h
          have hstep : (blockStep func infos acc i).1 = acc.1 ++ [(i, ins)] := by
            unfold blockStep
            rw [hget]
          rw [hlen, ih (blockStep func infos acc i), hstep]
          simp [List.append_assoc]

theorem buildBlock_ids (func : FunctionBody) (infos : List ValueInfo) (lo hi : Nat) :
    riIds (buildBlock func infos lo hi) =
      (List.range' lo (hi + 1 - lo)).filter (fun i => decide (i < func.length)) := by
  show (((List.range' lo (hi + 1 - lo)).foldl (blockStep func infos)
      ([], [], [])).1).map Prod.fst = _
  rw [foldBlock_fst func infos (List.range' lo (hi + 1 - lo)) ([], [], [])]
  rfl

theorem filter_range'_lt (m : Nat) : ∀ (n s : Nat),
    (List.range' s n).filter (fun i => decide (i < m)) =
      List.range' s (min n (m - s)) := by
  intro n
  induction n with
  | zero =>
      intro s
      simp
  | succ k ih =>
      intro s
      by_cases h : s < m
      · have h1 : min (k + 1) (m - s) = min k (m - (s + 1)) + 1 := by
          rcases Nat.le_total (k + 1) (m - s) with hmin | hmin
          · rw [Nat.min_eq_left hmin, Nat.min_eq_left (by omega)]
          · rw [Nat.min_eq_right hmin, Nat.min_eq_right (by omega)]
            omega
        have hd : decide (s < m) = true := by simpa using h
        rw [List.range'_succ, List.filter_cons, hd, if_pos rfl, ih (s + 1), h1,
          List.range'_succ]
      · have hz1 : m - (s + 1) = 0 := by omega
        have hz2 : m - s = 0 := by omega
        have h1 : min k (m - (s + 1)) = 0 := by rw [hz1, Nat.min_zero]
        have h2 : min (k + 1) (m - s) = 0 := by rw [hz2, Nat.min_zero]
        have hd : decide (s < m) = false := decide_eq_false h
        rw [List.range'_succ, List.filter_cons, hd,
          if_neg (by simp), ih (s + 1), h1, h2]
        rfl

theorem range'_decompose (a b c n : Nat) (hab : a ≤ b) (hbc : b ≤ c) :
    List.range' a (n - a) =
      List.range' a (min (b - a) (n - a)) ++
      (List.range' b (min (c - b) (n - b)) ++
       List.range' c (n - c)) := by
  rcases Nat.le_total n b with h | h
  · have h1 : min (b - a) (n - a) = n - a := Nat.min_eq_right (by omega)
    have h2 : min (c - b) (n - b) = 0 := by
      rw [show n - b = 0 from by omega, Nat.min_zero]
    have h3 : n - c = 0 := by omega
    rw [h1, h2, h3]
    simp
  · rcases Nat.le_total n c with h' | h'
    · have h1 : min (b - a) (n - a) = b - a := Nat.min_eq_left (by omega)
      have h2 : min (c - b) (n - b) = n - b := Nat.min_eq_right (by omega)
      have h3 : n - c = 0 := by omega
      rw [h1, h2, h3]
      rw [show List.range' c 0 = [] from rfl, List.append_nil]
      have hb : a + (b - a) = b := by omega
      have hn : (n - b) + (b - a) = n - a := by omega
      rw [← hn, ← List.range'_append_1 a (b - a) (n - b), hb]
    · have h1 : min (b - a) (n - a) = b - a := Nat.min_eq_left (by omega)
      have h2 : min (c - b) (n - b) = c - b := Nat.min_eq_left (by omega)
      rw [h1, h2]
      have hc : b + (c - b) = c := by omega
      have hnb : (n - c) + (c - b) = n - b := by omega
      have hinner : List.range' b (c - b) ++ List.range' c (n - c) =
          List.range' b (n - b) := by
        have happ := List.range'_append_1 b (c - b) (n - c)
        rw [hc, hnb] at happ
        exact happ
      rw [hinner]
      have hb : a + (b - a) = b := by omega
      have hn : (n - b) + (b - a) = n - a := by omega
      rw [← hn, ← List.range'_append_1 a (b - a) (n - b), hb]

theorem seg_allIds (func : FunctionBody) (infos : List ValueInfo) (sc : Scope) :
    allIds (match func.get? sc.lo with
      | some first =>
          if sc.lo = sc.hi && first.isDeclare then
            [ReactiveInstruction.instr sc.lo first]
          else [buildBlock func infos sc.lo sc.hi]
      | none => [buildBlock func infos sc.lo sc.hi]) =
    (List.range' sc.lo (sc.hi + 1 - sc.lo)).filter
      (fun i => decide (i < func.length)) := by
  rcases hget : func.get? sc.lo with _ | first
  · simp only [hget]
    simp only [allIds, List.append_nil]
    exact buildBlock_ids func infos sc.lo sc.hi
  · simp only [hget]
    by_cases hcond : (decide (sc.lo = sc.hi) && first.isDeclare) = true
    · rw [if_pos hcond]
      have hl : sc.lo < func.length :=
        (get?_isSome_iff_lt func sc.lo).mp ⟨first, hget⟩
      have hle : decide (sc.lo < func.length) = true := by simpa using hl
      have hsing : sc.lo = sc.hi :=
        of_decide_eq_true ((Bool.and_eq_true _ _).mp hcond).1
      simp only [allIds, riIds, List.append_nil]
      rw [← hsing, show sc.lo + 1 - sc.lo = 1 from by omega, List.range'_one,
        List.filter_cons, hle, if_pos rfl]
      rfl
    · rw [if_neg hcond]
      simp only [allIds, List.append_nil]
      exact buildBlock_ids func infos sc.lo sc.hi

theorem processScopes_allIds (func : FunctionBody) (infos : List ValueInfo) :
    ∀ (scopes : List Scope) (start : Nat),
      (∀ r ∈ scopes, r.lo ≤ r.hi) →
      List.Pairwise (fun a b : Scope => a.hi < b.lo) scopes →
      (∀ hd tl, scopes = hd :: tl → start ≤ hd.lo) →
      allIds (processScopes func infos scopes start) =
        List.range' start (func.length - start) := by
  intro scopes
  induction scopes with
  | nil =>
      intro start _ _ _
      show allIds (emitRange func start func.length) = _
      rw [emitRange_allIds, filter_range'_lt, Nat.min_self]
  | cons sc rest ih =>
      intro start hlh hpw hstart
      have hstart' := hstart sc rest rfl
      have hsclh := hlh sc (List.mem_cons_self _ _)
      have hpwc := List.pairwise_cons.mp hpw
      simp only [processScopes]
      rw [allIds_append, allIds_append, emitRange_allIds, seg_allIds,
        ih (sc.hi + 1) (fun r hr => hlh r (List.mem_cons_of_mem _ hr)) hpwc.2
          (fun hd tl heq => by
            have := hpwc.1 hd (heq ▸ List.mem_cons_self hd tl)
            omega),
        filter_range'_lt, filter_range'_lt]
      have := range'_decompose start sc.lo (sc.hi + 1) func.length hstart'
        (by omega)
      rw [List.append_assoc]
      exact this.symm

/-! ## C10 -/

/-- C10: the partitioned reactive sequence contains every instruction id of
the body exactly once — as a pass-through or inside exactly one block — and
the ids appear in strictly ascending order: flattening them yields precisely
`[0, ..., size)`. -/
theorem c10_partition_covers_ids (func : FunctionBody) (infos : List ValueInfo) :
    allIds (makeReactiveInstrs func infos) = List.range func.length := by
  obtain ⟨h1, h2⟩ := scope_ranges_spec func infos
  unfold makeReactiveInstrs
  rw [processScopes_allIds func infos _ 0 h1 h2 (fun hd tl _ => Nat.zero_le _),
    List.range_eq_range', Nat.sub_zero]

/-! ## C2 -/

theorem processScopes_demote_mem (func : FunctionBody) (infos : List ValueInfo)
    (sc : Scope) (ins : Instruction)
    (hsing : sc.lo = sc.hi) (hget : func.get? sc.lo = some ins)
    (hdecl : ins.isDeclare = true) :
    ∀ (scopes : List Scope) (start : Nat), sc ∈ scopes →
      ReactiveInstruction.instr sc.lo ins ∈
        processScopes func infos scopes start := by
  intro scopes
  induction scopes with
  | nil => intro start h; cases h
  | cons hd rest ih =>
      intro start hmem
      simp only [processScopes, List.mem_append]
      rcases List.mem_cons.mp hmem with rfl | hmem
      · have hseg : ReactiveInstruction.instr sc.lo ins ∈
            (match func.get? sc.lo with
             | some first =>
                 if sc.lo = sc.hi && first.isDeclare then
                   [ReactiveInstruction.instr sc.lo first]
                 else [buildBlock func infos sc.lo sc.hi]
             | none => [buildBlock func infos sc.lo sc.hi]) := by
          simp only [hget]
          rw [if_pos (by simp [hsing, hdecl])]
          exact List.mem_singleton.mpr rfl
        tauto
      · have := ih (hd.hi + 1) hmem
        tauto

theorem processScopes_block_bounds (func : FunctionBody) (infos : List ValueInfo) :
    ∀ (scopes : List Scope) (start : Nat) (bi : List (Nat × Instruction))
      (bd bdeps : List Nat),
      ReactiveInstruction.block bi bd bdeps ∈ processScopes func infos scopes start →
      ∃ sc' ∈ scopes, (∀ p ∈ bi, sc'.lo ≤ p.1 ∧ p.1 ≤ sc'.hi) ∧
        ¬(sc'.lo = sc'.hi ∧ ∃ first, func.get? sc'.lo = some first ∧
            first.isDeclare = true) := by
  intro scopes
  induction scopes with
  | nil =>
      intro start bi bd bdeps h
      have := emitRange_not_block func start func.length _ h
      simp [ReactiveInstruction.isBlock] at this
  | cons hd rest ih =>
      intro start bi bd bdeps h
      simp only [processScopes, List.mem_append] at h
      have h' : ReactiveInstruction.block bi bd bdeps ∈ emitRange func start hd.lo ∨
          ReactiveInstruction.block bi bd bdeps ∈
            (match func.get? hd.lo with
             | some first =>
                 if hd.lo = hd.hi && first.isDeclare then
                   [ReactiveInstruction.instr hd.lo first]
                 else [buildBlock func infos hd.lo hd.hi]
             | none => [buildBlock func infos hd.lo hd.hi]) ∨
          ReactiveInstruction.block bi bd bdeps ∈
            processScopes func infos rest (hd.hi + 1) := by tauto
      rcases h' with h | h | h
      · have := emitRange_not_block func start hd.lo _ h
        simp [ReactiveInstruction.isBlock] at this
      · rcases hget : func.get? hd.lo with _ | first
        · simp only [hget] at h
          have heq := List.mem_singleton.mp h
          have hids : bi.map Prod.fst =
              (List.range' hd.lo (hd.hi + 1 - hd.lo)).filter
                (fun i => decide (i < func.length)) := by
            have hb := buildBlock_ids func infos hd.lo hd.hi
            rw [← heq] at hb
            simpa [riIds] using hb
          refine ⟨hd, List.mem_cons_self _ _, ?_, ?_⟩
          · intro p hp
            have hmem : p.1 ∈ bi.map Prod.fst := List.mem_map_of_mem Prod.fst hp
            rw [hids] at hmem
            have := (List.mem_filter.mp hmem).1
            have hb := mem_range'_iff.mp this
            omega
          · rintro ⟨_, first', hf, _⟩
            rw [hget] at hf
            cases hf
        · simp only [hget] at h
          by_cases hcond : (decide (hd.lo = hd.hi) && first.isDeclare) = true
          · rw [if_pos hcond] at h
            simp at h
          · rw [if_neg hcond] at h
            have heq := List.mem_singleton.mp h
            have hids : bi.map Prod.fst =
                (List.range' hd.lo (hd.hi + 1 - hd.lo)).filter
                  (fun i => decide (i < func.length)) := by
              have hb := buildBlock_ids func infos hd.lo hd.hi
              rw [← heq] at hb
              simpa [riIds] using hb
            refine ⟨hd, List.mem_cons_self _ _, ?_, ?_⟩
            · intro p hp
              have hmem : p.1 ∈ bi.map Prod.fst := List.mem_map_of_mem Prod.fst hp
              rw [hids] at hmem
              have := (List.mem_filter.mp hmem).1
              have hb := mem_range'_iff.mp this
              omega
            · rintro ⟨hsing, first', hf, hdecl⟩
              rw [hget] at hf
              cases hf
              exact hcond (by simp [hsing, hdecl])
      · rcases ih (hd.hi + 1) bi bd bdeps h with ⟨sc', hsc', hrest⟩
        exact ⟨sc', List.mem_cons_of_mem _ hsc', hrest⟩

/-- C2: the block partitioner's scope ranges are well-formed closed ranges,
pairwise disjoint and strictly ascending after the sort-and-merge; and in the
scope-emission loop a single-instruction scope holding a `Declare` is emitted
as a plain pass-through instruction — it appears as a tagged instruction in
the output and its id belongs to no emitted block.  (The union of each
shouldMemoize instruction with its mutator set, the discarding of singleton
classes, and the `[min, max]` ranges are the definitions
`scopeClassesGo`/`dsUnion`/`getInstructionScopeRanges` themselves.) -/
theorem c2_block_partitioner (func : FunctionBody) (infos : List ValueInfo)
    (scopes : List Scope) (start : Nat) (sc : Scope) (ins : Instruction)
    (hmem : sc ∈ scopes) (hsing : sc.lo = sc.hi)
    (hget : func.get? sc.lo = some ins) (hdecl : ins.isDeclare = true)
    (hpw : List.Pairwise (fun a b : Scope => a.hi < b.lo) scopes) :
    (∀ r ∈ getInstructionScopeRanges func infos, r.lo ≤ r.hi) ∧
    List.Pairwise (fun a b : Scope => a.hi < b.lo)
      (getInstructionScopeRanges func infos) ∧
    ReactiveInstruction.instr sc.lo ins ∈ processScopes func infos scopes start ∧
    (∀ bi bd bdeps, ReactiveInstruction.block bi bd bdeps ∈
        processScopes func infos scopes start → ∀ p ∈ bi, p.1 ≠ sc.lo) := by
  obtain ⟨h1, h2⟩ := scope_ranges_spec func infos
  refine ⟨h1, h2, processScopes_demote_mem func infos sc ins hsing hget hdecl
    scopes start hmem, ?_⟩
  intro bi bd bdeps hblock p hp hplo
  rcases processScopes_block_bounds func infos scopes start bi bd bdeps hblock
    with ⟨sc', hsc'mem, hbounds, hncond⟩
  have hpb := hbounds p hp
  by_cases hsame : sc' = sc
  · subst hsame
    exact hncond ⟨hsing, ins, hget, hdecl⟩
  · have hsym : ∀ a b : Scope, a ∈ scopes → b ∈ scopes → a ≠ b →
        (a.hi < b.lo ∨ b.hi < a.lo) := by
      have hpw' : List.Pairwise
          (fun a b : Scope => a.hi < b.lo ∨ b.hi < a.lo) scopes :=
        hpw.imp (fun h => Or.inl h)
      intro a b ha hb hne
      exact List.Pairwise.forall (fun _ _ hxy => Or.symm hxy) hpw' ha hb hne
    have := hsym sc' sc hsc'mem hmem hsame
    rcases this with h | h <;> omega

/-- C2 witness: with artificial scopes `[(1,1)]` over
`[LoadConstant "1", Declare x $0]`, the single-instruction `Declare` scope is
emitted as a plain pass-through and no block carries id 1; the real scope
ranges of this body are (vacuously) well-formed and disjoint. -/
theorem c2_block_partitioner_witness :
    (∀ r ∈ getInstructionScopeRanges [Instruction.LoadConstant "1", .Declare "x" 0]
        (analyze [Instruction.LoadConstant "1", .Declare "x" 0]), r.lo ≤ r.hi) ∧
    List.Pairwise (fun a b : Scope => a.hi < b.lo)
      (getInstructionScopeRanges [Instruction.LoadConstant "1", .Declare "x" 0]
        (analyze [Instruction.LoadConstant "1", .Declare "x" 0])) ∧
    ReactiveInstruction.instr 1 (.Declare "x" 0) ∈
      processScopes [Instruction.LoadConstant "1", .Declare "x" 0]
        (analyze [Instruction.LoadConstant "1", .Declare "x" 0]) [⟨1, 1⟩] 0 ∧
    (∀ bi bd bdeps, ReactiveInstruction.block bi bd bdeps ∈
        processScopes [Instruction.LoadConstant "1", .Declare "x" 0]
          (analyze [Instruction.LoadConstant "1", .Declare "x" 0]) [⟨1, 1⟩] 0 →
        ∀ p ∈ bi, p.1 ≠ 1) :=
  c2_block_partitioner [Instruction.LoadConstant "1", .Declare "x" 0]
    (analyze [Instruction.LoadConstant "1", .Declare "x" 0]) [⟨1, 1⟩] 0 ⟨1, 1⟩
    (.Declare "x" 0) (by decide) rfl rfl rfl (List.pairwise_singleton _ _)

/-! ## C4: the no-forward-reference invariant of lowering -/

/-- Every operand reference an instruction holds has a strictly smaller id. -/
def WFBody (l : List Instruction) : Prop :=
  ∀ id ins, l.get? id = some ins → ∀ u ∈ eachValue ins, u < id

theorem wfBody_append_one (l : List Instruction) (ins : Instruction)
    (hwf : WFBody l) (hops : ∀ u ∈ eachValue ins, u < l.length) :
    WFBody (l ++ [ins]) := by
  intro id ins' hget u hu
  by_cases h : id < l.length
  · rw [List.get?_append h] at hget
    exact hwf id ins' hget u hu
  · have hlen : id < (l ++ [ins]).length := by
      by_contra hc
      rw [List.get?_len_le (by omega)] at hget
      cases hget
    have hid : id = l.length := by
      simp only [List.length_append, List.length_singleton] at hlen
      omega
    subst hid
    have hins : (l ++ [ins]).get? l.length = some ins := by
      rw [List.get?_append_right (le_refl _)]
      simp
    rw [hins] at hget
    cases hget
    exact hops u hu

theorem ext_trans {a b c : List Instruction} (h1 : ∃ t, b = a ++ t)
    (h2 : ∃ t, c = b ++ t) : ∃ t, c = a ++ t := by
  rcases h1 with ⟨t1, rfl⟩
  rcases h2 with ⟨t2, rfl⟩
  exact ⟨t1 ++ t2, by simp⟩

theorem ext_len {a b : List Instruction} (h : ∃ t, b = a ++ t) :
    a.length ≤ b.length := by
  rcases h with ⟨t, rfl⟩
  simp

theorem ok_bind {α β : Type} (a : α) (f : α → Except String β) :
    ((Except.ok a : Except String α) >>= f) = f a := rfl

theorem error_bind {α β : Type} (msg : String) (f : α → Except String β) :
    ((Except.error msg : Except String α) >>= f) = .error msg := rfl

theorem ok_pair_inj {α β : Type} {x : α × β} {a : α} {b : β}
    (h : (Except.ok x : Except String (α × β)) = .ok (a, b)) :
    a = x.1 ∧ b = x.2 := by
  injection h with h'
  subst h'
  exact ⟨rfl, rfl⟩

theorem pushInstr_ok_case (s : LowerState) (ins : Instruction)
    (hwf : WFBody s.instrs) (hops : ∀ u ∈ eachValue ins, u < s.instrs.length) :
    WFBody (pushInstr ins s).1.instrs ∧
    (∃ t, (pushInstr ins s).1.instrs = s.instrs ++ t) ∧
    (pushInstr ins s).2 < (pushInstr ins s).1.instrs.length := by
  refine ⟨wfBody_append_one s.instrs ins hwf hops, ⟨[ins], rfl⟩, ?_⟩
  show s.instrs.length < (s.instrs ++ [ins]).length
  simp

theorem getDeclaration_lt (func : List Instruction) (name : String) (id : Nat)
    (h : getDeclaration func name = some id) : id < func.length := by
  unfold getDeclaration at h
  rw [getDeclarationGo_spec] at h
  obtain ⟨j, hj, ⟨ins, hget, _⟩, _⟩ := h
  have := (get?_isSome_iff_lt func j).mp ⟨ins, hget⟩
  omega

/-- The lowering invariant for an expression node. -/
def ExprOK (e : BExpr) : Prop :=
  ∀ s s' r, WFBody s.instrs → lowerExpr e s = .ok (s', r) →
    WFBody s'.instrs ∧ (∃ t, s'.instrs = s.instrs ++ t) ∧ r < s'.instrs.length

/-- The lowering invariant for an argument list. -/
def ArgsOK (l : BArgs) : Prop :=
  ∀ s s' vs, WFBody s.instrs → lowerArgs l s = .ok (s', vs) →
    WFBody s'.instrs ∧ (∃ t, s'.instrs = s.instrs ++ t) ∧
    ∀ v ∈ vs, ∀ i, v = Value.RValue i → i < s'.instrs.length

/-- The lowering invariant for an object-member list. -/
def PropsOK (m : BMembers) : Prop :=
  ∀ s kvs0 s' kvs, WFBody s.instrs →
    (∀ kv ∈ kvs0, ∀ i, (kv : String × Value).2 = Value.RValue i →
      i < s.instrs.length) →
    lowerProps m s kvs0 = .ok (s', kvs) →
    WFBody s'.instrs ∧ (∃ t, s'.instrs = s.instrs ++ t) ∧
    ∀ kv ∈ kvs, ∀ i, (kv : String × Value).2 = Value.RValue i →
      i < s'.instrs.length

theorem mapSet_bound (P : Value → Prop) :
    ∀ (kvs : List (String × Value)) (k : String) (v : Value),
      (∀ kv ∈ kvs, P (kv : String × Value).2) → P v →
      ∀ kv ∈ mapSet kvs k v, P (kv : String × Value).2 := by
  intro kvs
  induction kvs with
  | nil =>
      intro k v _ hv kv hkv
      rcases List.mem_singleton.mp hkv with rfl
      exact hv
  | cons kv0 rest ih =>
      intro k v hall hv kv hkv
      simp only [mapSet] at hkv
      by_cases hk : kv0.1 = k
      · rw [if_pos hk] at hkv
        rcases List.mem_cons.mp hkv with rfl | hkv
        · exact hv
        · exact hall kv (List.mem_cons_of_mem _ hkv)
      · rw [if_neg hk] at hkv
        rcases List.mem_cons.mp hkv with rfl | hkv
        · exact hall kv0 (List.mem_cons_self _ _)
        · exact ih k v (fun kv' hkv' => hall kv' (List.mem_cons_of_mem _ hkv'))
            hv kv hkv

theorem eachValue_call_bound (recv : Nat) (prop : Option String)
    (args : List Value) (n : Nat) (hrecv : recv < n)
    (hargs : ∀ v ∈ args, ∀ i, v = Value.RValue i → i < n) :
    ∀ u ∈ eachValue (.Call recv prop args), u < n := by
  intro u hu
  simp only [eachValue, List.mem_cons] at hu
  rcases hu with rfl | hu
  · exact hrecv
  · rcases List.mem_filterMap.mp hu with ⟨v, hv, hmap⟩
    cases v with
    | RValue i =>
        cases hmap
        exact hargs _ hv _ rfl
    | Literal _ => cases hmap

theorem eachValue_object_bound (pvs : List (String × Value)) (n : Nat)
    (h : ∀ kv ∈ pvs, ∀ i, (kv : String × Value).2 = Value.RValue i → i < n) :
    ∀ u ∈ eachValue (.Object pvs), u < n := by
  intro u hu
  simp only [eachValue] at hu
  rcases List.mem_filterMap.mp hu with ⟨kv, hkv, hmap⟩
  cases hv2 : (kv : String × Value).2 with
  | RValue i =>
      rw [hv2] at hmap
      cases hmap
      exact h kv hkv _ hv2
  | Literal _ =>
      rw [hv2] at hmap
      cases hmap

/-- Generic non-member-callee call lowering preserves the invariant. -/
theorem callE_generic (callee : BExpr) (args : BArgs)
    (hcallee : ExprOK callee) (hargs : ArgsOK args)
    (heq : ∀ s, lowerExpr (.callE callee args) s = (do
      let p1 ← lowerExpr callee s
      let p2 ← lowerArgs args p1.1
      Except.ok (pushInstr (.Call p1.2 none p2.2) p2.1))) :
    ExprOK (.callE callee args) := by
  intro s s' r hwf hok
  rw [heq] at hok
  rcases hsub : lowerExpr callee s with msg | ⟨s1, v1⟩
  · rw [hsub, error_bind] at hok
    cases hok
  · rw [hsub, ok_bind] at hok
    obtain ⟨hwf1, hext1, hv1⟩ := hcallee s s1 v1 hwf hsub
    rcases hargsE : lowerArgs args s1 with msg | ⟨s2, avs⟩
    · rw [show lowerArgs args ((s1, v1) : LowerState × Nat).1 = lowerArgs args s1
        from rfl, hargsE, error_bind] at hok
      cases hok
    · rw [show lowerArgs args ((s1, v1) : LowerState × Nat).1 = lowerArgs args s1
        from rfl, hargsE, ok_bind] at hok
      obtain ⟨hwf2, hext2, hbound⟩ := hargs s1 s2 avs hwf1 hargsE
      obtain ⟨hs', hr⟩ := ok_pair_inj hok
      subst hs'
      subst hr
      obtain ⟨hwf3, hext3, hr3⟩ := pushInstr_ok_case s2 (.Call v1 none avs) hwf2
        (eachValue_call_bound v1 none avs s2.instrs.length
          (lt_of_lt_of_le hv1 (ext_len hext2)) hbound)
      exact ⟨hwf3, ext_trans hext1 (ext_trans hext2 hext3), hr3⟩

/-- Generic non-literal argument lowering preserves the invariant. -/
theorem args_cons_generic (a : BExpr) (rest : BArgs)
    (ha : ExprOK a) (hrest : ArgsOK rest)
    (heq : ∀ s, lowerArgs (.cons a rest) s = (do
      let p1 ← lowerExpr a s
      let p2 ← lowerArgs rest p1.1
      Except.ok (p2.1, Value.RValue p1.2 :: p2.2))) :
    ArgsOK (.cons a rest) := by
  intro s s' vs hwf hok
  rw [heq] at hok
  rcases hsub : lowerExpr a s with msg | ⟨s1, v1⟩
  · rw [hsub, error_bind] at hok
    cases hok
  · rw [hsub, ok_bind] at hok
    obtain ⟨hwf1, hext1, hv1⟩ := ha s s1 v1 hwf hsub
    rcases hrestE : lowerArgs rest s1 with msg | ⟨s2, vs1⟩
    · rw [show lowerArgs rest ((s1, v1) : LowerState × Nat).1 = lowerArgs rest s1
        from rfl, hrestE, error_bind] at hok
      cases hok
    · rw [show lowerArgs rest ((s1, v1) : LowerState × Nat).1 = lowerArgs rest s1
        from rfl, hrestE, ok_bind] at hok
      obtain ⟨hwf2, hext2, hbound⟩ := hrest s1 s2 vs1 hwf1 hrestE
      obtain ⟨hs', hv⟩ := ok_pair_inj hok
      subst hs'
      subst hv
      refine ⟨hwf2, ext_trans hext1 hext2, ?_⟩
      intro w hw i hwi
      rcases List.mem_cons.mp hw with rfl | hw
      · cases hwi
        exact lt_of_lt_of_le hv1 (ext_len hext2)
      · exact hbound w hw i hwi

/-- Generic non-literal object-property value lowering preserves the
invariant. -/
theorem props_cons_generic (keyName : String) (value : BExpr) (rest : BMembers)
    (hvalue : ExprOK value) (hrest : PropsOK rest)
    (heq : ∀ s kvs, lowerProps (.cons (.prop (.ident keyName) value) rest) s kvs =
      (do
        let p1 ← lowerExpr value s
        lowerProps rest p1.1 (mapSet kvs keyName (.RValue p1.2)))) :
    PropsOK (.cons (.prop (.ident keyName) value) rest) := by
  intro s kvs0 s' kvs hwf hb hok
  rw [heq] at hok
  rcases hsub : lowerExpr value s with msg | ⟨s1, v1⟩
  · rw [hsub, error_bind] at hok
    cases hok
  · rw [hsub, ok_bind] at hok
    obtain ⟨hwf1, hext1, hv1⟩ := hvalue s s1 v1 hwf hsub
    have hb1 : ∀ kv ∈ mapSet kvs0 keyName (.RValue v1),
        ∀ i, (kv : String × Value).2 = Value.RValue i → i < s1.instrs.length := by
      have := mapSet_bound
        (fun val => ∀ i, val = Value.RValue i → i < s1.instrs.length)
        kvs0 keyName (.RValue v1)
        (fun kv hkv i hkvi =>
          lt_of_lt_of_le (hb kv hkv i hkvi) (ext_len hext1))
        (by intro i hi; cases hi; exact hv1)
      exact fun kv hkv i hkvi => this kv hkv i hkvi
    obtain ⟨hwf2, hext2, hbound⟩ := hrest s1 (mapSet kvs0 keyName (.RValue v1))
      s' kvs hwf1 hb1 hok
    exact ⟨hwf2, ext_trans hext1 hext2, hbound⟩

mutual
theorem lowerExpr_ok : ∀ e : BExpr, ExprOK e
  | .ident name => by
      intro s s' r hwf hok
      simp only [lowerExpr] at hok
      cases hgd : getDeclaration s.instrs name with
      | some d =>
          rw [hgd] at hok
          obtain ⟨hs', hr⟩ := ok_pair_inj hok
          subst hs'
          subst hr
          exact ⟨hwf, ⟨[], by simp⟩, getDeclaration_lt _ _ _ hgd⟩
      | none =>
          rw [hgd] at hok
          obtain ⟨hs', hr⟩ := ok_pair_inj hok
          subst hs'
          subst hr
          exact pushInstr_ok_case s (.LoadConstant name) hwf
            (by intro u hu; cases hu)
  | .member obj prop c => by
      intro s s' r hwf hok
      rcases hsub : lowerExpr obj s with msg | ⟨s1, v1⟩
      · simp only [lowerExpr, hsub, error_bind] at hok
        cases hok
      · obtain ⟨hwf1, hext1, hv1⟩ := lowerExpr_ok obj s s1 v1 hwf hsub
        cases prop with
        | ident pname =>
            simp only [lowerExpr, hsub, ok_bind] at hok
            obtain ⟨hs', hr⟩ := ok_pair_inj hok
            subst hs'
            subst hr
            obtain ⟨hwf2, hext2, hr2⟩ := pushInstr_ok_case s1
              (.ReadProperty v1 (.pstr pname)) hwf1
              (by intro u hu
                  rcases List.mem_singleton.mp hu with rfl
                  exact hv1)
            exact ⟨hwf2, ext_trans hext1 hext2, hr2⟩
        | numLit v =>
            simp only [lowerExpr, hsub, ok_bind] at hok
            obtain ⟨hs', hr⟩ := ok_pair_inj hok
            subst hs'
            subst hr
            obtain ⟨hwf2, hext2, hr2⟩ := pushInstr_ok_case s1
              (.ReadProperty v1 (.pnum v)) hwf1
              (by intro u hu
                  rcases List.mem_singleton.mp hu with rfl
                  exact hv1)
            exact ⟨hwf2, ext_trans hext1 hext2, hr2⟩
        | strLit v =>
            simp only [lowerExpr, hsub, ok_bind] at hok
            obtain ⟨hs', hr⟩ := ok_pair_inj hok
            subst hs'
            subst hr
            obtain ⟨hwf2, hext2, hr2⟩ := pushInstr_ok_case s1
              (.ReadProperty v1 (.pstr v)) hwf1
              (by intro u hu
                  rcases List.mem_singleton.mp hu with rfl
                  exact hv1)
            exact ⟨hwf2, ext_trans hext1 hext2, hr2⟩
        | member o2 p2 c2 =>
            simp only [lowerExpr, hsub, ok_bind] at hok
            cases hok
        | objectE ps2 =>
            simp only [lowerExpr, hsub, ok_bind] at hok
            cases hok
        | callE c2 a2 =>
            simp only [lowerExpr, hsub, ok_bind] at hok
            cases hok
        | boolLit v =>
            simp only [lowerExpr, hsub, ok_bind] at hok
            cases hok
        | arrow p2 b2 =>
            simp only [lowerExpr, hsub, ok_bind] at hok
            cases hok
        | funcE p2 b2 =>
            simp only [lowerExpr, hsub, ok_bind] at hok
            cases hok
        | binary l2 r2 =>
            simp only [lowerExpr, hsub, ok_bind] at hok
            cases hok
        | arrayE e2 =>
            simp only [lowerExpr, hsub, ok_bind] at hok
            cases hok
        | unsupportedE t2 =>
            simp only [lowerExpr, hsub, ok_bind] at hok
            cases hok
  | .objectE props => by
      intro s s' r hwf hok
      rcases hsub : lowerProps props s [] with msg | ⟨s1, pvs⟩
      · simp only [lowerExpr, hsub, error_bind] at hok
        cases hok
      · have hprops := lowerProps_ok props s [] s1 pvs hwf
          (by intro kv hkv; cases hkv) hsub
        simp only [lowerExpr, hsub, ok_bind] at hok
        obtain ⟨hs', hr⟩ := ok_pair_inj hok
        subst hs'
        subst hr
        obtain ⟨hwf1, hext1, hbound⟩ := hprops
        obtain ⟨hwf2, hext2, hr2⟩ := pushInstr_ok_case s1 (.Object pvs) hwf1
          (eachValue_object_bound pvs s1.instrs.length hbound)
        exact ⟨hwf2, ext_trans hext1 hext2, hr2⟩
  | .callE (.member obj p cm) args => by
      intro s s' r hwf hok
      rcases hsub : lowerExpr obj s with msg | ⟨s1, v1⟩
      · simp only [lowerExpr, hsub, error_bind] at hok
        cases hok
      · obtain ⟨hwf1, hext1, hv1⟩ := lowerExpr_ok obj s s1 v1 hwf hsub
        cases p with
        | ident pname =>
            rcases hargsE : lowerArgs args s1 with msg | ⟨s2, avs⟩
            · simp only [lowerExpr, hsub, ok_bind, hargsE, error_bind] at hok
              cases hok
            · obtain ⟨hwf2, hext2, hbound⟩ :=
                lowerArgs_ok args s1 s2 avs hwf1 hargsE
              simp only [lowerExpr, hsub, ok_bind, hargsE] at hok
              obtain ⟨hs', hr⟩ := ok_pair_inj hok
              subst hs'
              subst hr
              obtain ⟨hwf3, hext3, hr3⟩ := pushInstr_ok_case s2
                (.Call v1 (some pname) avs) hwf2
                (eachValue_call_bound v1 (some pname) avs s2.instrs.length
                  (lt_of_lt_of_le hv1 (ext_len hext2)) hbound)
              exact ⟨hwf3, ext_trans hext1 (ext_trans hext2 hext3), hr3⟩
        | member o2 p2 c2 =>
            simp only [lowerExpr, hsub, ok_bind] at hok
            cases hok
        | objectE ps2 =>
            simp only [lowerExpr, hsub, ok_bind] at hok
            cases hok
        | callE c2 a2 =>
            simp only [lowerExpr, hsub, ok_bind] at hok
            cases hok
        | strLit v =>
            simp only [lowerExpr, hsub, ok_bind] at hok
            cases hok
        | numLit v =>
            simp only [lowerExpr, hsub, ok_bind] at hok
            cases hok
        | boolLit v =>
            simp only [lowerExpr, hsub, ok_bind] at hok
            cases hok
        | arrow p2 b2 =>
            simp only [lowerExpr, hsub, ok_bind] at hok
            cases hok
        | funcE p2 b2 =>
            simp only [lowerExpr, hsub, ok_bind] at hok
            cases hok
        | binary l2 r2 =>
            simp only [lowerExpr, hsub, ok_bind] at hok
            cases hok
        | arrayE e2 =>
            simp only [lowerExpr, hsub, ok_bind] at hok
            cases hok
        | unsupportedE t2 =>
            simp only [lowerExpr, hsub, ok_bind] at hok
            cases hok
  | .callE (.ident n) args =>
      callE_generic _ args (lowerExpr_ok (.ident n)) (lowerArgs_ok args)
        (fun s => rfl)
  | .callE (.objectE ps) args =>
      callE_generic _ args (lowerExpr_ok (.objectE ps)) (lowerArgs_ok args)
        (fun s => rfl)
  | .callE (.callE c2 a2) args =>
      callE_generic _ args (lowerExpr_ok (.callE c2 a2)) (lowerArgs_ok args)
        (fun s => rfl)
  | .callE (.strLit v) args =>
      callE_generic _ args (lowerExpr_ok (.strLit v)) (lowerArgs_ok args)
        (fun s => rfl)
  | .callE (.numLit v) args =>
      callE_generic _ args (lowerExpr_ok (.numLit v)) (lowerArgs_ok args)
        (fun s => rfl)
  | .callE (.boolLit v) args =>
      callE_generic _ args (lowerExpr_ok (.boolLit v)) (lowerArgs_ok args)
        (fun s => rfl)
  | .callE (.arrow p2 b2) args =>
      callE_generic _ args (lowerExpr_ok (.arrow p2 b2)) (lowerArgs_ok args)
        (fun s => rfl)
  | .callE (.funcE p2 b2) args =>
      callE_generic _ args (lowerExpr_ok (.funcE p2 b2)) (lowerArgs_ok args)
        (fun s => rfl)
  | .callE (.binary l2 r2) args =>
      callE_generic _ args (lowerExpr_ok (.binary l2 r2)) (lowerArgs_ok args)
        (fun s => rfl)
  | .callE (.arrayE e2) args =>
      callE_generic _ args (lowerExpr_ok (.arrayE e2)) (lowerArgs_ok args)
        (fun s => rfl)
  | .callE (.unsupportedE t2) args =>
      callE_generic _ args (lowerExpr_ok (.unsupportedE t2)) (lowerArgs_ok args)
        (fun s => rfl)
  | .strLit v => by
      intro s s' r hwf hok
      simp only [lowerExpr] at hok
      obtain ⟨hs', hr⟩ := ok_pair_inj hok
      subst hs'
      subst hr
      exact pushInstr_ok_case s (.LoadConstant v) hwf (by intro u hu; cases hu)
  | .numLit v => by
      intro s s' r hwf hok
      simp only [lowerExpr] at hok
      obtain ⟨hs', hr⟩ := ok_pair_inj hok
      subst hs'
      subst hr
      exact pushInstr_ok_case s (.LoadConstant (toString v)) hwf
        (by intro u hu; cases hu)
  | .boolLit v => by
      intro s s' r hwf hok
      simp only [lowerExpr] at hok
      obtain ⟨hs', hr⟩ := ok_pair_inj hok
      subst hs'
      subst hr
      exact pushInstr_ok_case s (.LoadConstant (if v then "true" else "false"))
        hwf (by intro u hu; cases hu)
  | .arrow p2 b2 => by
      intro s s' r hwf hok
      simp only [lowerExpr] at hok
      obtain ⟨hs', hr⟩ := ok_pair_inj hok
      subst hs'
      subst hr
      exact pushInstr_ok_case s (.LoadConstant "function") hwf
        (by intro u hu; cases hu)
  | .funcE p2 b2 => by
      intro s s' r hwf hok
      simp only [lowerExpr] at hok
      obtain ⟨hs', hr⟩ := ok_pair_inj hok
      subst hs'
      subst hr
      exact pushInstr_ok_case s (.LoadConstant "function") hwf
        (by intro u hu; cases hu)
  | .binary l2 r2 => by
      intro s s' r hwf hok
      simp only [lowerExpr] at hok
      obtain ⟨hs', hr⟩ := ok_pair_inj hok
      subst hs'
      subst hr
      exact pushInstr_ok_case
        { s with logs := s.logs ++ [.skipUnsupported "BinaryExpression"] }
        (.LoadConstant ("unsupported_" ++ "BinaryExpression")) hwf
        (by intro u hu; cases hu)
  | .arrayE e2 => by
      intro s s' r hwf hok
      simp only [lowerExpr] at hok
      obtain ⟨hs', hr⟩ := ok_pair_inj hok
      subst hs'
      subst hr
      exact pushInstr_ok_case
        { s with logs := s.logs ++ [.skipUnsupported "ArrayExpression"] }
        (.LoadConstant ("unsupported_" ++ "ArrayExpression")) hwf
        (by intro u hu; cases hu)
  | .unsupportedE ty => by
      intro s s' r hwf hok
      simp only [lowerExpr] at hok
      obtain ⟨hs', hr⟩ := ok_pair_inj hok
      subst hs'
      subst hr
      exact pushInstr_ok_case
        { s with logs := s.logs ++ [.skipUnsupported ty] }
        (.LoadConstant ("unsupported_" ++ ty)) hwf
        (by intro u hu; cases hu)

theorem lowerArgs_ok : ∀ l : BArgs, ArgsOK l
  | .nil => by
      intro s s' vs hwf hok
      simp only [lowerArgs] at hok
      obtain ⟨hs', hv⟩ := ok_pair_inj hok
      subst hs'
      subst hv
      exact ⟨hwf, ⟨[], by simp⟩, by intro v hv i _; cases hv⟩
  | .cons (.numLit v) rest => by
      intro s s' vs hwf hok
      rcases hsub : lowerArgs rest s with msg | ⟨s1, vs1⟩
      · simp only [lowerArgs, hsub, error_bind] at hok
        cases hok
      · obtain ⟨hwf1, hext1, hbound⟩ := lowerArgs_ok rest s s1 vs1 hwf hsub
        simp only [lowerArgs, hsub, ok_bind] at hok
        obtain ⟨hs', hv⟩ := ok_pair_inj hok
        subst hs'
        subst hv
        refine ⟨hwf1, hext1, ?_⟩
        intro w hw i hwi
        rcases List.mem_cons.mp hw with rfl | hw
        · cases hwi
        · exact hbound w hw i hwi
  | .cons (.strLit v) rest => by
      intro s s' vs hwf hok
      rcases hsub : lowerArgs rest s with msg | ⟨s1, vs1⟩
      · simp only [lowerArgs, hsub, error_bind] at hok
        cases hok
      · obtain ⟨hwf1, hext1, hbound⟩ := lowerArgs_ok rest s s1 vs1 hwf hsub
        simp only [lowerArgs, hsub, ok_bind] at hok
        obtain ⟨hs', hv⟩ := ok_pair_inj hok
        subst hs'
        subst hv
        refine ⟨hwf1, hext1, ?_⟩
        intro w hw i hwi
        rcases List.mem_cons.mp hw with rfl | hw
        · cases hwi
        · exact hbound w hw i hwi
  | .cons (.boolLit v) rest => by
      intro s s' vs hwf hok
      rcases hsub : lowerArgs rest s with msg | ⟨s1, vs1⟩
      · simp only [lowerArgs, hsub, error_bind] at hok
        cases hok
      · obtain ⟨hwf1, hext1, hbound⟩ := lowerArgs_ok rest s s1 vs1 hwf hsub
        simp only [lowerArgs, hsub, ok_bind] at hok
        obtain ⟨hs', hv⟩ := ok_pair_inj hok
        subst hs'
        subst hv
        refine ⟨hwf1, hext1, ?_⟩
        intro w hw i hwi
        rcases List.mem_cons.mp hw with rfl | hw
        · cases hwi
        · exact hbound w hw i hwi
  | .cons (.ident n) rest =>
      args_cons_generic _ rest (lowerExpr_ok (.ident n)) (lowerArgs_ok rest)
        (fun s => rfl)
  | .cons (.member o2 p2 c2) rest =>
      args_cons_generic _ rest (lowerExpr_ok (.member o2 p2 c2))
        (lowerArgs_ok rest) (fun s => rfl)
  | .cons (.objectE ps) rest =>
      args_cons_generic _ rest (lowerExpr_ok (.objectE ps)) (lowerArgs_ok rest)
        (fun s => rfl)
  | .cons (.callE c2 a2) rest =>
      args_cons_generic _ rest (lowerExpr_ok (.callE c2 a2)) (lowerArgs_ok rest)
        (fun s => rfl)
  | .cons (.arrow p2 b2) rest =>
      args_cons_generic _ rest (lowerExpr_ok (.arrow p2 b2)) (lowerArgs_ok rest)
        (fun s => rfl)
  | .cons (.funcE p2 b2) rest =>
      args_cons_generic _ rest (lowerExpr_ok (.funcE p2 b2)) (lowerArgs_ok rest)
        (fun s => rfl)
  | .cons (.binary l2 r2) rest =>
      args_cons_generic _ rest (lowerExpr_ok (.binary l2 r2)) (lowerArgs_ok rest)
        (fun s => rfl)
  | .cons (.arrayE e2) rest =>
      args_cons_generic _ rest (lowerExpr_ok (.arrayE e2)) (lowerArgs_ok rest)
        (fun s => rfl)
  | .cons (.unsupportedE t2) rest =>
      args_cons_generic _ rest (lowerExpr_ok (.unsupportedE t2))
        (lowerArgs_ok rest) (fun s => rfl)

theorem lowerProps_ok : ∀ m : BMembers, PropsOK m
  | .nil => by
      intro s kvs0 s' kvs hwf hb hok
      simp only [lowerProps] at hok
      obtain ⟨hs', hv⟩ := ok_pair_inj hok
      subst hs'
      subst hv
      exact ⟨hwf, ⟨[], by simp⟩, hb⟩
  | .cons (.prop (.ident k) (.strLit v)) rest => by
      intro s kvs0 s' kvs hwf hb hok
      simp only [lowerProps] at hok
      exact lowerProps_ok rest s (mapSet kvs0 k (.Literal (.str v))) s' kvs hwf
        (mapSet_bound
          (fun val => ∀ i, val = Value.RValue i → i < s.instrs.length)
          kvs0 k _ hb (by intro i hi; cases hi)) hok
  | .cons (.prop (.ident k) (.numLit v)) rest => by
      intro s kvs0 s' kvs hwf hb hok
      simp only [lowerProps] at hok
      exact lowerProps_ok rest s (mapSet kvs0 k (.Literal (.num v))) s' kvs hwf
        (mapSet_bound
          (fun val => ∀ i, val = Value.RValue i → i < s.instrs.length)
          kvs0 k _ hb (by intro i hi; cases hi)) hok
  | .cons (.prop (.ident k) (.boolLit v)) rest => by
      intro s kvs0 s' kvs hwf hb hok
      simp only [lowerProps] at hok
      exact lowerProps_ok rest s (mapSet kvs0 k (.Literal (.bool v))) s' kvs hwf
        (mapSet_bound
          (fun val => ∀ i, val = Value.RValue i → i < s.instrs.length)
          kvs0 k _ hb (by intro i hi; cases hi)) hok
  | .cons (.prop (.ident k) (.ident n)) rest =>
      props_cons_generic k _ rest (lowerExpr_ok (.ident n)) (lowerProps_ok rest)
        (fun s kvs => rfl)
  | .cons (.prop (.ident k) (.member o2 p2 c2)) rest =>
      props_cons_generic k _ rest (lowerExpr_ok (.member o2 p2 c2))
        (lowerProps_ok rest) (fun s kvs => rfl)
  | .cons (.prop (.ident k) (.objectE ps)) rest =>
      props_cons_generic k _ rest (lowerExpr_ok (.objectE ps))
        (lowerProps_ok rest) (fun s kvs => rfl)
  | .cons (.prop (.ident k) (.callE c2 a2)) rest =>
      props_cons_generic k _ rest (lowerExpr_ok (.callE c2 a2))
        (lowerProps_ok rest) (fun s kvs => rfl)
  | .cons (.prop (.ident k) (.arrow p2 b2)) rest =>
      props_cons_generic k _ rest (lowerExpr_ok (.arrow p2 b2))
        (lowerProps_ok rest) (fun s kvs => rfl)
  | .cons (.prop (.ident k) (.funcE p2 b2)) rest =>
      props_cons_generic k _ rest (lowerExpr_ok (.funcE p2 b2))
        (lowerProps_ok rest) (fun s kvs => rfl)
  | .cons (.prop (.ident k) (.binary l2 r2)) rest =>
      props_cons_generic k _ rest (lowerExpr_ok (.binary l2 r2))
        (lowerProps_ok rest) (fun s kvs => rfl)
  | .cons (.prop (.ident k) (.arrayE e2)) rest =>
      props_cons_generic k _ rest (lowerExpr_ok (.arrayE e2))
        (lowerProps_ok rest) (fun s kvs => rfl)
  | .cons (.prop (.ident k) (.unsupportedE t2)) rest =>
      props_cons_generic k _ rest (lowerExpr_ok (.unsupportedE t2))
        (lowerProps_ok rest) (fun s kvs => rfl)
  | .cons (.prop (.member o2 p2 c2) v) rest => by
      intro s kvs0 s' kvs hwf hb hok
      simp only [lowerProps] at hok
      cases hok
  | .cons (.prop (.objectE ps) v) rest => by
      intro s kvs0 s' kvs hwf hb hok
      simp only [lowerProps] at hok
      cases hok
  | .cons (.prop (.callE c2 a2) v) rest => by
      intro s kvs0 s' kvs hwf hb hok
      simp only [lowerProps] at hok
      cases hok
  | .cons (.prop (.strLit sv) v) rest => by
      intro s kvs0 s' kvs hwf hb hok
      simp only [lowerProps] at hok
      cases hok
  | .cons (.prop (.numLit nv) v) rest => by
      intro s kvs0 s' kvs hwf hb hok
      simp only [lowerProps] at hok
      cases hok
  | .cons (.prop (.boolLit bv) v) rest => by
      intro s kvs0 s' kvs hwf hb hok
      simp only [lowerProps] at hok
      cases hok
  | .cons (.prop (.arrow p2 b2) v) rest => by
      intro s kvs0 s' kvs hwf hb hok
      simp only [lowerProps] at hok
      cases hok
  | .cons (.prop (.funcE p2 b2) v) rest => by
      intro s kvs0 s' kvs hwf hb hok
      simp only [lowerProps] at hok
      cases hok
  | .cons (.prop (.binary l2 r2) v) rest => by
      intro s kvs0 s' kvs hwf hb hok
      simp only [lowerProps] at hok
      cases hok
  | .cons (.prop (.arrayE e2) v) rest => by
      intro s kvs0 s' kvs hwf hb hok
      simp only [lowerProps] at hok
      cases hok
  | .cons (.prop (.unsupportedE t2) v) rest => by
      intro s kvs0 s' kvs hwf hb hok
      simp only [lowerProps] at hok
      cases hok
  | .cons (.spreadM a2) rest => by
      intro s kvs0 s' kvs hwf hb hok
      simp only [lowerProps] at hok
      exact lowerProps_ok rest s kvs0 s' kvs hwf hb hok
  | .cons (.otherM t2) rest => by
      intro s kvs0 s' kvs hwf hb hok
      simp only [lowerProps] at hok
      exact lowerProps_ok rest s kvs0 s' kvs hwf hb hok
end

theorem lowerDecls_ok : ∀ (ds : BDecls) (s : LowerState) (last : Nat)
    (s' : LowerState) (r : Nat), WFBody s.instrs →
    lowerDecls ds s last = .ok (s', r) →
    WFBody s'.instrs ∧ ∃ t, s'.instrs = s.instrs ++ t
  | .nil => by
      intro s last s' r hwf hok
      simp only [lowerDecls] at hok
      obtain ⟨hs', _⟩ := ok_pair_inj hok
      subst hs'
      exact ⟨hwf, ⟨[], by simp⟩⟩
  | .cons (.declarator lv none) rest => by
      intro s last s' r hwf hok
      cases lv <;> cases hok
  | .cons (.declarator (.lident name) (some init)) rest => by
      intro s last s' r hwf hok
      rcases hsub : lowerExpr init s with msg | ⟨s1, iv⟩
      · simp only [lowerDecls, hsub, error_bind] at hok
        cases hok
      · obtain ⟨hwf1, hext1, hiv⟩ := lowerExpr_ok init s s1 iv hwf hsub
        simp only [lowerDecls, hsub, ok_bind] at hok
        obtain ⟨hwf2, hext2, _⟩ := pushInstr_ok_case s1 (.Declare name iv) hwf1
          (by intro u hu
              rcases List.mem_singleton.mp hu with rfl
              exact hiv)
        obtain ⟨hwf3, hext3⟩ := lowerDecls_ok rest
          (pushInstr (.Declare name iv) s1).1 (pushInstr (.Declare name iv) s1).2
          s' r hwf2 hok
        exact ⟨hwf3, ext_trans hext1 (ext_trans hext2 hext3)⟩
  | .cons (.declarator (.arrayPat elements) (some init)) rest => by
      intro s last s' r hwf hok
      rcases hsub : lowerExpr init s with msg | ⟨s1, iv⟩
      · simp only [lowerDecls, hsub, error_bind] at hok
        cases hok
      · obtain ⟨hwf1, hext1, hiv⟩ := lowerExpr_ok init s s1 iv hwf hsub
        simp only [lowerDecls, hsub, ok_bind] at hok
        obtain ⟨hwf2, hext2, _⟩ := pushInstr_ok_case s1
          (.Declare (arrayPatName elements) iv) hwf1
          (by intro u hu
              rcases List.mem_singleton.mp hu with rfl
              exact hiv)
        obtain ⟨hwf3, hext3⟩ := lowerDecls_ok rest
          (pushInstr (.Declare (arrayPatName elements) iv) s1).1
          (pushInstr (.Declare (arrayPatName elements) iv) s1).2
          s' r hwf2 hok
        exact ⟨hwf3, ext_trans hext1 (ext_trans hext2 hext3)⟩
  | .cons (.declarator (.otherPat ty) (some iv0)) rest => by
      intro s last s' r hwf hok
      simp only [lowerDecls] at hok
      exact lowerDecls_ok rest { s with logs := s.logs ++ [.skipPattern ty] }
        last s' r hwf hok
  | .cons (.otherDecl t2) rest => by
      intro s last s' r hwf hok
      simp only [lowerDecls] at hok
      exact lowerDecls_ok rest s last s' r hwf hok

theorem lowerStmt_ok (st : BStmt) (s : LowerState) (s' : LowerState) (r : Nat)
    (hwf : WFBody s.instrs) (hok : lowerStmt st s = .ok (s', r)) :
    WFBody s'.instrs ∧ ∃ t, s'.instrs = s.instrs ++ t := by
  cases st with
  | ret arg =>
      cases arg with
      | none =>
          simp only [lowerStmt] at hok
          obtain ⟨hs', hr⟩ := ok_pair_inj hok
          subst hs'
          obtain ⟨hwf2, hext2, _⟩ := pushInstr_ok_case s (.Return none) hwf
            (by intro u hu; cases hu)
          exact ⟨hwf2, hext2⟩
      | some e =>
          rcases hsub : lowerExpr e s with msg | ⟨s1, v1⟩
          · simp only [lowerStmt, hsub, error_bind] at hok
            cases hok
          · obtain ⟨hwf1, hext1, hv1⟩ := lowerExpr_ok e s s1 v1 hwf hsub
            simp only [lowerStmt, hsub, ok_bind] at hok
            obtain ⟨hs', hr⟩ := ok_pair_inj hok
            subst hs'
            obtain ⟨hwf2, hext2, _⟩ := pushInstr_ok_case s1 (.Return (some v1))
              hwf1
              (by intro u hu
                  rcases List.mem_singleton.mp hu with rfl
                  exact hv1)
            exact ⟨hwf2, ext_trans hext1 hext2⟩
  | varDecl k ds =>
      simp only [lowerStmt] at hok
      exact lowerDecls_ok ds s s.instrs.length s' r hwf hok
  | exprStmt e =>
      simp only [lowerStmt] at hok
      obtain ⟨hwf1, hext1, _⟩ := lowerExpr_ok e s s' r hwf hok
      exact ⟨hwf1, hext1⟩
  | unsupportedS ty =>
      simp only [lowerStmt] at hok
      obtain ⟨hs', hr⟩ := ok_pair_inj hok
      subst hs'
      obtain ⟨hwf2, hext2, _⟩ := pushInstr_ok_case
        { s with logs := s.logs ++ [.skipUnsupported ty] }
        (.LoadConstant ("unsupported_" ++ ty)) hwf (by intro u hu; cases hu)
      exact ⟨hwf2, hext2⟩

theorem lowerObjPat_ok : ∀ (props : List BMember) (s : LowerState)
    (s' : LowerState), WFBody s.instrs →
    lowerParams.lowerObjPat props s = .ok s' → WFBody s'.instrs := by
  intro props
  induction props with
  | nil =>
      intro s s' hwf hok
      injection hok with h
      subst h
      exact hwf
  | cons m rest ih =>
      intro s s' hwf hok
      cases m with
      | prop key v =>
          cases key with
          | ident k =>
              simp only [lowerParams.lowerObjPat] at hok
              exact ih (pushRaw (.Param k) s).1 s'
                (wfBody_append_one s.instrs (.Param k) hwf
                  (by intro u hu; cases hu)) hok
          | member o2 p2 c2 => cases hok
          | objectE ps2 => cases hok
          | callE c2 a2 => cases hok
          | strLit sv => cases hok
          | numLit nv => cases hok
          | boolLit bv => cases hok
          | arrow p2 b2 => cases hok
          | funcE p2 b2 => cases hok
          | binary l2 r2 => cases hok
          | arrayE e2 => cases hok
          | unsupportedE t2 => cases hok
      | spreadM a2 => cases hok
      | otherM t2 => cases hok

theorem lowerParams_ok : ∀ (ps : List BParamNode) (s : LowerState)
    (s' : LowerState), WFBody s.instrs → lowerParams ps s = .ok s' →
    WFBody s'.instrs := by
  intro ps
  induction ps with
  | nil =>
      intro s s' hwf hok
      injection hok with h
      subst h
      exact hwf
  | cons p rest ih =>
      intro s s' hwf hok
      cases p with
      | pident name =>
          simp only [lowerParams] at hok
          exact ih (pushRaw (.Param name) s).1 s'
            (wfBody_append_one s.instrs (.Param name) hwf
              (by intro u hu; cases hu)) hok
      | objPat props =>
          rcases hsub : lowerParams.lowerObjPat props s with msg | s1
          · simp only [lowerParams, hsub, error_bind] at hok
            cases hok
          · simp only [lowerParams, hsub, ok_bind] at hok
            exact ih s1 s' (lowerObjPat_ok props s s1 hwf hsub) hok
      | otherParam ty =>
          simp only [lowerParams] at hok
          cases hok

theorem lowerBody_ok : ∀ (sts : BStmts) (s s' : LowerState),
    WFBody s.instrs → lowerBody sts s = .ok s' → WFBody s'.instrs
  | .nil => by
      intro s s' hwf hok
      injection hok with h
      subst h
      exact hwf
  | .cons st rest => by
      intro s s' hwf hok
      rcases hsub : lowerStmt st s with msg | ⟨s1, r1⟩
      · simp only [lowerBody, hsub, error_bind] at hok
        cases hok
      · simp only [lowerBody, hsub, ok_bind] at hok
        obtain ⟨hwf1, _⟩ := lowerStmt_ok st s s1 r1 hwf hsub
        exact lowerBody_ok rest s1 s' hwf1 hok

/-- C4: for every function whose lowering succeeds, every operand reference
held by any instruction of the resulting `FunctionBody` (a Call's receiver and
RValue arguments, an Object's RValue property values, a ReadProperty's object,
a Declare's rhs, a Return's value — exactly `eachValue`) is an id strictly
smaller than the id of the instruction holding it. -/
theorem c4_no_forward_references (f : BFunction) (st : LowerState)
    (h : readInstructions f = .ok st) (id : Nat) (ins : Instruction)
    (hget : st.instrs.get? id = some ins) :
    ∀ u ∈ eachValue ins, u < id := by
  unfold readInstructions at h
  rcases hp : lowerParams f.params ⟨[], []⟩ with msg | s1
  · rw [hp, error_bind] at h
    cases h
  · rw [hp, ok_bind] at h
    have hwf0 : WFBody (⟨[], []⟩ : LowerState).instrs := by
      intro id0 ins0 hget0 u hu
      cases hget0
    have hwf1 := lowerParams_ok f.params ⟨[], []⟩ s1 hwf0 hp
    have hwf2 := lowerBody_ok f.body s1 st hwf1 h
    exact hwf2 id ins hget

/-- C4 witness: `function F(a) { return a; }` lowers to
`[Param a, Return $0]`, and the `Return`'s operand 0 is smaller than its id 1. -/
theorem c4_no_forward_references_witness : (0 : Nat) < 1 :=
  c4_no_forward_references
    ⟨[.pident "a"], .cons (.ret (some (.ident "a"))) .nil⟩
    ⟨[.Param "a", .Return (some 0)], [.instrLog 1]⟩ rfl 1 (.Return (some 0)) rfl
    0 (by decide)

end MRC

